import Mathlib

/-!
Verification development for the `job_control` engine
(`src/job_control/jobs.py`, driven by `src/run_job.py`).

The data model and the scheduling operations of the `Job` class are embedded
shallowly:

* per-step `job_status` dictionaries become the `StepState` record;
* the static part of `self.steps` (dependencies after `ALL` resolution,
  `type`, `task`, `resultcode_allowed`) together with `CONCURRENCY` and the
  global simulate flag becomes `JobCfg`;
* the mutable scheduler state (`job_status` of every step, `self.queue`,
  `self.processes`, `self.completed`, `self.failed`) becomes `JobState`;
* wall-clock timestamps (`datetime.today()`) are supplied as explicit `now`
  arguments, OS pids by a `pidO` oracle, SMTP delivery by a `mailO` oracle and
  `Popen.poll()` by a `pollO` oracle;
* the unbounded `while child_queue` loop of `get_decendents` is embedded with
  explicit fuel and returns `none` when the fuel runs out, so statements about
  its termination are statements about the existence of sufficient fuel;
* Python exceptions that escape a method (`InvalidTypeError`, an SMTP
  exception escaping `send_mail`, the `KeyError` in `abort_step`) are embedded
  as `Except.error` results.
-/

set_option maxHeartbeats 1000000

namespace JobControl

/-- Status vocabulary of a step, mirroring the keys of the `STATUSES` table
built in `Job.__init__` (jobs.py:134-143). -/
inductive Status where
  | waiting | queued | running | complete | disabled | failed | canceled | aborted
deriving DecidableEq, Repr

/-- The `runnable` flag of the `STATUSES` table: true for waiting and queued. -/
def Status.runnableFlag : Status → Bool
  | .waiting => true
  | .queued => true
  | _ => false

/-- The `running` flag of the `STATUSES` table: true only for running. -/
def Status.runningFlag : Status → Bool
  | .running => true
  | _ => false

/-- The mutable `job_status` dictionary of one step, from
`STEP_STATUS_TEMPLATE` (jobs.py:133).  Times are modelled as integers. -/
structure StepState where
  status : Status
  resultcode : Option Int
  pid : Option Nat
  queuedTime : Option Int
  startTime : Option Int
  stopTime : Option Int
  duration : Int
  simulate : Bool
deriving DecidableEq, Repr

/-- The raw `dependencies` entry of a step in the JSON configuration: the
literal string `ALL`, JSON `null`, or a list of step ids. -/
inductive RawDeps where
  | all | null | list (l : List String)
deriving DecidableEq, Repr

/-- The static configuration entry of one step, as consumed by
`Job.__init__`: `dependencies`, `type`, `task`, `enabled` and the optional
`resultcode_allowed`. -/
structure RawStep where
  rdeps : RawDeps
  stype : String
  task : String
  enabled : Bool
  rcAllowed : Option (List Int)
deriving DecidableEq, Repr

/-- Static data of a constructed `Job`: the step ids in dictionary key order,
the resolved dependencies, types, tasks and allowed result codes of every
step, `CONCURRENCY`, and the global `simulate` flag. -/
structure JobCfg where
  keys : List String
  deps : String → Option (List String)
  stype : String → String
  task : String → String
  rcAllowed : String → List Int
  concurrency : Nat
  simulate : Bool

/-- One entry of `self.processes`: `process_queue` stores `{}` for a simulated
os step and a dictionary holding the `Popen` handle (and the `out` file) for a
real one (jobs.py:650-660). -/
inductive ProcEntry where
  | empty
  | spawned (pid : Nat)
deriving DecidableEq, Repr

/-- The mutable scheduler state owned by the `Job` instance: the per-step
`job_status` records, `self.queue`, `self.processes`, `self.completed` and
`self.failed`. -/
structure JobState where
  steps : String → StepState
  queue : List String
  processes : List (String × ProcEntry)
  completed : List String
  failed : List String

/-- Outcome of one `smtplib` delivery attempt as observed by `send_mail`
(jobs.py:815-822): `sendmail` returns the dictionary of refused recipients
(modelled by whether it is non-empty), or raises. -/
inductive MailOutcome where
  | delivered (refused : Bool)
  | raised
deriving DecidableEq, Repr

/-- A Python exception escaping one of the embedded operations:
`InvalidTypeError` (jobs.py:702), an SMTP exception escaping `send_mail`
inside `process_queue` (jobs.py:670), the `KeyError` raised by `abort_step` on
a process entry without a `process` key (jobs.py:309), or exhaustion of the
fuel given to `get_decendents`. -/
inductive RunErr where
  | invalidType (t : String)
  | mailRaised
  | keyErr
  | fuelOut
deriving DecidableEq, Repr

/-- Sorting a list of step ids, mirroring Python `sorted()` on strings
(lexicographic by character; compared on the underlying character lists). -/
def sortStr (l : List String) : List String :=
  List.insertionSort (fun a b => a.data ≤ b.data) l

/-- The resolved dependency list of a step; Python's `None` is read as the
empty list by the traversal helpers. -/
def depsL (g : JobCfg) (s : String) : List String :=
  (g.deps s).getD []

/-- The `get_all_dependencies` method (jobs.py:356-363): all step keys except
the given one (`keys.remove(step)` drops the first occurrence). -/
def get_all_dependencies (keys : List String) (s : String) : List String :=
  keys.erase s

/-- The `get_children` method (jobs.py:248-257): every step, in sorted key
order, whose dependency list contains the given step. -/
def get_children (g : JobCfg) (s : String) : List String :=
  (sortStr g.keys).filter (fun c => decide (s ∈ depsL g c))

/-- The loop body state of `get_decendents` (jobs.py:259-290): `decendents`
and `child_queue`, with explicit fuel for the unbounded `while` loop.
Each iteration pops the head of the queue, fetches its children, and rebuilds
both containers from `set(...)` (modelled by `List.dedup`; the order produced
by Python's `set` is arbitrary, so only membership in the result is relied
upon).  Returns `none` when the fuel is exhausted before the queue empties. -/
def get_decendents_aux (g : JobCfg) : Nat → List String → List String → Option (List String)
  | _, d, [] => some d
  | 0, _, _ :: _ => none
  | fuel + 1, d, c :: rest =>
    let children := get_children g c
    get_decendents_aux g fuel ((d ++ children).dedup) ((rest ++ children).dedup)

/-- The `get_decendents` method (jobs.py:259-290) with explicit fuel:
bootstraps the queue with the given step and crawls. -/
def get_decendents (g : JobCfg) (fuel : Nat) (s : String) : Option (List String) :=
  get_decendents_aux g fuel [] [s]

/-- Functional update of one step's `job_status` record. -/
def JobState.setStep (st : JobState) (s : String) (v : StepState) : JobState :=
  { st with steps := fun t => if t = s then v else st.steps t }

/-- Update only the `status` field of one step. -/
def set_status (st : JobState) (s : String) (x : Status) : JobState :=
  st.setStep s { st.steps s with status := x }

/-- One iteration of the `cancel_children` loop (jobs.py:237-241): a step in
waiting or queued is set to canceled; the commented-out queue removal is
absent, so `st.queue` is untouched. -/
def cancel_one (st : JobState) (t : String) : JobState :=
  if (st.steps t).status = .waiting ∨ (st.steps t).status = .queued
  then set_status st t .canceled else st

/-- Folding `cancel_one` over a list of step ids. -/
def cancel_list (l : List String) (st : JobState) : JobState :=
  l.foldl cancel_one st

/-- The body of `cancel_children` (jobs.py:232-246) applied to an already
computed descendant list: iterate in sorted order. -/
def cancel_children_with (ds : List String) (st : JobState) : JobState :=
  cancel_list (sortStr ds) st

/-- The `cancel_children` method (jobs.py:232-246): compute the descendants
(with fuel) and cancel every waiting or queued one. -/
def cancel_children (g : JobCfg) (fuel : Nat) (s : String) (st : JobState) :
    Option JobState :=
  (get_decendents g fuel s).map (fun ds => cancel_children_with ds st)

/-- The statistics update at the end of `complete_step` (jobs.py:334-337):
record the result code, the stop time, and duration = stop − start.  (Python
would raise a `TypeError` if `start_time` were unset; all call sites set it at
dispatch, and the claims about `complete_step` hypothesise a recorded start
time, so the `getD 0` default is never exercised there.) -/
def record_stats (s : String) (r now : Int) (st : JobState) : JobState :=
  st.setStep s { st.steps s with
    resultcode := some r,
    stopTime := some now,
    duration := now - ((st.steps s).startTime.getD 0) }

/-- The `complete_step` method (jobs.py:319-337): on an allowed result code,
append to `completed` and mark complete; otherwise append to `failed`, mark
failed and cancel the dependents; in both cases record the statistics. -/
def complete_step (g : JobCfg) (fuel : Nat) (s : String) (r : Int) (now : Int)
    (st : JobState) : Option JobState :=
  if r ∈ g.rcAllowed s then
    some (record_stats s r now
      { set_status st s .complete with completed := st.completed ++ [s] })
  else
    (cancel_children g fuel s
      { set_status st s .failed with failed := st.failed ++ [s] }).map
      (record_stats s r now)

/-- The `dependencies_met` method (jobs.py:339-354): `None` means no
dependencies; otherwise compare the size of the dependency set with the size
of its intersection with the completed set. -/
def dependencies_met (g : JobCfg) (st : JobState) (s : String) : Bool :=
  match g.deps s with
  | none => true
  | some ds => decide (ds.toFinset.card = (st.completed.toFinset ∩ ds.toFinset).card)

/-- Queueing one step in `queue_runnables` (jobs.py:712-716): append to the
queue, set status queued, record the queued time. -/
def queue_step (st : JobState) (s : String) (now : Int) : JobState :=
  { st.setStep s { st.steps s with status := .queued, queuedTime := some now } with
      queue := st.queue ++ [s] }

/-- The loop of `queue_runnables` over the sorted step keys (jobs.py:709-716):
queue every waiting step that is not already queued and whose dependencies are
met. -/
def queue_runnables_aux (g : JobCfg) (now : Int) : List String → JobState → JobState
  | [], st => st
  | s :: rest, st =>
    if (st.steps s).status = .waiting ∧ s ∉ st.queue ∧ dependencies_met g st s = true
    then queue_runnables_aux g now rest (queue_step st s now)
    else queue_runnables_aux g now rest st

/-- The `queue_runnables` method (jobs.py:704-716). -/
def queue_runnables (g : JobCfg) (now : Int) (st : JobState) : JobState :=
  queue_runnables_aux g now (sortStr g.keys) st

/-- The `get_running_steps` method (jobs.py:388-399): the keys of the steps
whose status has the `running` flag. -/
def get_running_steps (g : JobCfg) (st : JobState) : List String :=
  g.keys.filter (fun s => ((st.steps s).status).runningFlag)

/-- The live count `len(self.get_running_steps())` used by the dispatch guard
of `process_queue` (jobs.py:642). -/
def runningCount (g : JobCfg) (st : JobState) : Nat :=
  (get_running_steps g st).length

/-- Assignment `self.processes[step] = entry`: overwrite in place if the key
exists, else append (Python dict insertion order). -/
def update_proc (ps : List (String × ProcEntry)) (s : String) (e : ProcEntry) :
    List (String × ProcEntry) :=
  if ps.any (fun p => decide (p.1 = s)) then
    ps.map (fun p => if p.1 = s then (s, e) else p)
  else ps ++ [(s, e)]

/-- The status/start-time update performed on the popped step at the top of
the `process_queue` loop body (jobs.py:647-648). -/
def dispatch_mark (s : String) (now : Int) (st : JobState) : JobState :=
  st.setStep s { st.steps s with status := .running, startTime := some now }

/-- The `while` loop of `process_queue` (jobs.py:636-702), recursing on the
queue (which only ever shrinks by the `popleft` at the top of the body).
While the queue is non-empty and the live running count is strictly below
`CONCURRENCY`: pop the head, mark it running, then dispatch by type.  An os
step gets a `processes` entry (`{}` when simulated, the spawned handle
otherwise).  An internal `send_mail` step synchronously delivers (outcome from
the `mailO` oracle; an SMTP exception is uncaught and aborts the method) and
is completed with code 1 when the returned refusal dictionary is non-empty,
else 0; an internal `sleep` step is completed with code 0; an internal step
with any other task is left running with nothing done.  An unknown type
raises `InvalidTypeError`. -/
def process_queue_aux (g : JobCfg) (fuel : Nat) (mailO : String → MailOutcome)
    (pidO : String → Nat) (now : Int) :
    List String → JobState → Except RunErr JobState
  | [], st => .ok st
  | s :: rest, st =>
    if runningCount g st < g.concurrency then
      let st1 := dispatch_mark s now { st with queue := rest }
      if g.stype s = "os" then
        let st2 :=
          if g.simulate || (st1.steps s).simulate then
            { st1 with processes := update_proc st1.processes s .empty }
          else
            { st1.setStep s { st1.steps s with pid := some (pidO s) } with
                processes := update_proc st1.processes s (.spawned (pidO s)) }
        process_queue_aux g fuel mailO pidO now rest st2
      else if g.stype s = "internal" then
        if g.task s = "send_mail" then
          match (if g.simulate || (st1.steps s).simulate then
              MailOutcome.delivered false else mailO s) with
          | .raised => .error .mailRaised
          | .delivered refused =>
            match complete_step g fuel s (if refused then 1 else 0) now st1 with
            | none => .error .fuelOut
            | some st2 => process_queue_aux g fuel mailO pidO now rest st2
        else if g.task s = "sleep" then
          match complete_step g fuel s 0 now st1 with
          | none => .error .fuelOut
          | some st2 => process_queue_aux g fuel mailO pidO now rest st2
        else
          process_queue_aux g fuel mailO pidO now rest st1
      else .error (.invalidType (g.stype s))
    else .ok st

/-- The `process_queue` method (jobs.py:636-702). -/
def process_queue (g : JobCfg) (fuel : Nat) (mailO : String → MailOutcome)
    (pidO : String → Nat) (now : Int) (st : JobState) : Except RunErr JobState :=
  process_queue_aux g fuel mailO pidO now st.queue st

/-- The loop of `monitor_processes` (jobs.py:451-491) over a snapshot of
`self.processes` (which it never modifies): skip steps already in `completed`
or `failed`; for a real running step poll it (the `pollO` oracle returns the
exit code, or `none` while still running) and complete it with the observed
code; for a simulated one complete it immediately with code 0. -/
def monitor_aux (g : JobCfg) (fuel : Nat) (pollO : String → Option Int) (now : Int) :
    List (String × ProcEntry) → JobState → Except RunErr JobState
  | [], st => .ok st
  | (s, _) :: rest, st =>
    if s ∈ st.completed ∨ s ∈ st.failed then
      monitor_aux g fuel pollO now rest st
    else if !g.simulate && !(st.steps s).simulate then
      match pollO s with
      | none => monitor_aux g fuel pollO now rest st
      | some code =>
        match complete_step g fuel s code now st with
        | none => .error .fuelOut
        | some st' => monitor_aux g fuel pollO now rest st'
    else
      match complete_step g fuel s 0 now st with
      | none => .error .fuelOut
      | some st' => monitor_aux g fuel pollO now rest st'

/-- The `monitor_processes` method (jobs.py:451-491). -/
def monitor_processes (g : JobCfg) (fuel : Nat) (pollO : String → Option Int)
    (now : Int) (st : JobState) : Except RunErr JobState :=
  monitor_aux g fuel pollO now st.processes st

/-- The tail of `abort_step` (jobs.py:314-317): set the status to aborted and
cancel the dependents. -/
def abort_finish (g : JobCfg) (fuel : Nat) (s : String) (st : JobState) :
    Except RunErr JobState :=
  match cancel_children g fuel s (set_status st s .aborted) with
  | none => .error .fuelOut
  | some st' => .ok st'

/-- The `abort_step` method (jobs.py:302-317): for an os step, look up
`self.processes[step]['process']` in order to kill it — a `KeyError` escapes
when the entry is the empty dictionary stored for a simulated step (or when
the step has no entry at all); then mark aborted and cancel dependents. -/
def abort_step (g : JobCfg) (fuel : Nat) (s : String) (st : JobState) :
    Except RunErr JobState :=
  if g.stype s = "os" then
    match List.lookup s st.processes with
    | some (.spawned _) => abort_finish g fuel s st
    | _ => .error .keyErr
  else abort_finish g fuel s st

/-- The loop of `cancel` (jobs.py:292-300) over the step keys: abort every
step whose status has the `running` flag. -/
def cancel_aux (g : JobCfg) (fuel : Nat) : List String → JobState → Except RunErr JobState
  | [], st => .ok st
  | s :: rest, st =>
    if ((st.steps s).status).runningFlag then
      match abort_step g fuel s st with
      | .error e => .error e
      | .ok st' => cancel_aux g fuel rest st'
    else cancel_aux g fuel rest st

/-- The `cancel` method (jobs.py:292-300). -/
def cancel (g : JobCfg) (fuel : Nat) (st : JobState) : Except RunErr JobState :=
  cancel_aux g fuel g.keys st

/-- The `is_success` method (jobs.py:401-405): compare the number of steps
with the length of the completed list. -/
def is_success (g : JobCfg) (st : JobState) : Bool :=
  decide (g.keys.length = st.completed.length)

/-- The `runnables` method (jobs.py:718-728): some step has a runnable
status. -/
def runnables (g : JobCfg) (st : JobState) : Bool :=
  g.keys.any (fun s => ((st.steps s).status).runnableFlag)

/-- The `running` method (jobs.py:730-740): some step has a running status. -/
def runningPred (g : JobCfg) (st : JobState) : Bool :=
  g.keys.any (fun s => ((st.steps s).status).runningFlag)

/-- Resolution of the raw `dependencies` entry performed by `Job.__init__`
(jobs.py:204-206): `ALL` becomes every other key, `null` stays unset. -/
def resolve_deps (keys : List String) (s : String) : RawDeps → Option (List String)
  | .all => some (get_all_dependencies keys s)
  | .null => none
  | .list l => some l

/-- The static configuration produced by `Job.__init__` (jobs.py:199-230)
from the parsed step map: dependency resolution and the `resultcode_allowed`
default `[0]`.  No validation of dependency ids is performed there. -/
def jobCfg (raw : List (String × RawStep)) (simulate : Bool) (concurrency : Nat) :
    JobCfg :=
  { keys := raw.map Prod.fst
    deps := fun s =>
      match List.lookup s raw with
      | some r => resolve_deps (raw.map Prod.fst) s r.rdeps
      | none => none
    stype := fun s =>
      match List.lookup s raw with
      | some r => r.stype
      | none => ""
    task := fun s =>
      match List.lookup s raw with
      | some r => r.task
      | none => ""
    rcAllowed := fun s =>
      match List.lookup s raw with
      | some r => r.rcAllowed.getD [0]
      | none => [0]
    concurrency := concurrency
    simulate := simulate }

/-- The fresh `STEP_STATUS_TEMPLATE` record (jobs.py:133). -/
def step_status_template (simulate : Bool) : StepState :=
  { status := .waiting, resultcode := none, pid := none, queuedTime := none,
    startTime := none, stopTime := none, duration := 0, simulate := simulate }

/-- The initial mutable state produced by `Job.__init__`: every step waiting
with its simulate flag set from the global flag, `enabled` and the
`--disabled` list (jobs.py:200-224); empty queue, process table, completed
and failed lists (jobs.py:124-127). -/
def jobInitState (raw : List (String × RawStep)) (simulate : Bool)
    (disabled : List String) : JobState :=
  { steps := fun s =>
      { step_status_template simulate with
          simulate := simulate ||
            (match List.lookup s raw with
             | some r => !r.enabled || decide (s ∈ disabled)
             | none => false) }
    queue := []
    processes := []
    completed := []
    failed := [] }

/-- The operations the control loop of `run_job.py` (and its SIGINT handler)
performs on the job state, with their oracles. -/
inductive Op where
  | queueRunnablesOp (now : Int)
  | processQueueOp (fuel : Nat) (mailO : String → MailOutcome) (pidO : String → Nat) (now : Int)
  | monitorOp (fuel : Nat) (pollO : String → Option Int) (now : Int)
  | cancelOp (fuel : Nat)

/-- Apply one operation to the job state. -/
def applyOp (g : JobCfg) : Op → JobState → Except RunErr JobState
  | .queueRunnablesOp now, st => .ok (queue_runnables g now st)
  | .processQueueOp fuel mailO pidO now, st => process_queue g fuel mailO pidO now st
  | .monitorOp fuel pollO now, st => monitor_processes g fuel pollO now st
  | .cancelOp fuel, st => cancel g fuel st

/-- The states reachable from a given initial state by the job's
operations. -/
inductive Reachable (g : JobCfg) (init : JobState) : JobState → Prop
  | refl : Reachable g init init
  | step {st st' : JobState} (o : Op) :
      Reachable g init st → applyOp g o st = .ok st' → Reachable g init st'

/-- The edge relation of the dependent graph: `v` is a direct child
(dependent) of `u`. -/
def childEdge (g : JobCfg) (u v : String) : Prop :=
  v ∈ get_children g u

/-- Acyclicity of the dependent graph, expressed by a ranking function that
strictly decreases along every child edge. -/
def Acyclic (g : JobCfg) : Prop :=
  ∃ rk : String → Nat, ∀ u v, childEdge g u v → rk v < rk u

/-- Termination of `get_decendents` on a step: some finite fuel suffices. -/
def TerminatesOn (g : JobCfg) (s : String) : Prop :=
  ∃ fuel ds, get_decendents g fuel s = some ds

/-- Statuses a step can have once it has been queued at least once. -/
def DispStatus (x : Status) : Prop :=
  x = .queued ∨ x = .running ∨ x = .complete ∨ x = .failed ∨ x = .aborted

/-- Statuses a step can have once it has an entry in `self.processes`. -/
def ProcStatus (x : Status) : Prop :=
  x = .running ∨ x = .complete ∨ x = .failed ∨ x = .aborted

/-- The joint state invariant maintained by the job's operations. -/
structure Good (g : JobCfg) (st : JobState) : Prop where
  queue_nodup : st.queue.Nodup
  queue_status : ∀ s ∈ st.queue, (st.steps s).status = .queued
  queued_mem : ∀ s, (st.steps s).status = .queued → s ∈ st.queue
  queue_sub : ∀ s ∈ st.queue, s ∈ g.keys
  completed_status : ∀ s ∈ st.completed, (st.steps s).status = .complete
  complete_mem : ∀ s, (st.steps s).status = .complete → s ∈ st.completed
  completed_nodup : st.completed.Nodup
  completed_sub : ∀ s ∈ st.completed, s ∈ g.keys
  failed_status : ∀ s ∈ st.failed, (st.steps s).status = .failed
  failed_mem : ∀ s, (st.steps s).status = .failed → s ∈ st.failed
  deps_comp : ∀ s, DispStatus (st.steps s).status → ∀ d ∈ depsL g s, d ∈ st.completed
  procs_status : ∀ s ∈ st.processes.map Prod.fst, ProcStatus (st.steps s).status
  procs_sub : ∀ s ∈ st.processes.map Prod.fst, s ∈ g.keys

/-! ### Concrete example configurations used by witnesses and counterexamples -/

/-- A one-step configuration: an internal `sleep` step with no dependencies. -/
def rawSimple : List (String × RawStep) :=
  [("alpha", { rdeps := .list [], stype := "internal", task := "sleep",
               enabled := true, rcAllowed := none })]

def gSimple : JobCfg := jobCfg rawSimple true 1

def stSimple0 : JobState := jobInitState rawSimple true []

def stSimple1 : JobState := queue_runnables gSimple 1 stSimple0

/-- A two-step configuration whose dependency graph is a cycle: `A` depends on
`B` and `B` depends on `A`. -/
def rawCycle : List (String × RawStep) :=
  [("A", { rdeps := .list ["B"], stype := "os", task := "a",
           enabled := true, rcAllowed := none }),
   ("B", { rdeps := .list ["A"], stype := "os", task := "b",
           enabled := true, rcAllowed := none })]

def gCycle : JobCfg := jobCfg rawCycle false 1

/-- A two-step acyclic configuration: `B` depends on `A`. -/
def rawLine : List (String × RawStep) :=
  [("A", { rdeps := .list [], stype := "os", task := "a",
           enabled := true, rcAllowed := none }),
   ("B", { rdeps := .list ["A"], stype := "os", task := "b",
           enabled := true, rcAllowed := none })]

def gLine : JobCfg := jobCfg rawLine false 1

def stLine0 : JobState := jobInitState rawLine false []

def stLine1 : JobState := (cancel_children gLine 3 "A" stLine0).getD stLine0

/-- A configuration in which step `beta` depends on the unknown id `ghost`. -/
def rawBad : List (String × RawStep) :=
  [("alpha", { rdeps := .list [], stype := "internal", task := "sleep",
               enabled := true, rcAllowed := none }),
   ("beta", { rdeps := .list ["ghost"], stype := "os", task := "b",
              enabled := true, rcAllowed := none })]

def gBad : JobCfg := jobCfg rawBad true 1

def stBad0 : JobState := jobInitState rawBad true []

def stBad1 : JobState := queue_runnables gBad 0 stBad0

def stBad2 : JobState :=
  (process_queue gBad 9 (fun _ => .delivered false) (fun _ => 0) 0 stBad1).toOption.getD stBad0

/-- A configuration with one non-simulated internal `send_mail` step. -/
def rawMail : List (String × RawStep) :=
  [("mailer", { rdeps := .list [], stype := "internal", task := "send_mail",
                enabled := true, rcAllowed := none })]

def gMail : JobCfg := jobCfg rawMail false 1

def stMail0 : JobState := jobInitState rawMail false []

def stMail1 : JobState := queue_runnables gMail 0 stMail0

def stMail2 : JobState :=
  (process_queue gMail 5 (fun _ => .delivered false) (fun _ => 0) 7 stMail1).toOption.getD stMail0

/-- A configuration with one disabled (hence simulated) os step. -/
def rawOs : List (String × RawStep) :=
  [("osstep", { rdeps := .list [], stype := "os", task := "echo hi",
                enabled := false, rcAllowed := none })]

def gOs : JobCfg := jobCfg rawOs false 2

def stOs0 : JobState := jobInitState rawOs false []

def stOs1 : JobState := queue_runnables gOs 0 stOs0

def stOs2 : JobState :=
  (process_queue gOs 3 (fun _ => .delivered false) (fun _ => 1) 0 stOs1).toOption.getD stOs0

/-- A state in which step `alpha` is running with a recorded start time. -/
def stRun : JobState :=
  { steps := fun _ =>
      { status := .running, resultcode := none, pid := none, queuedTime := none,
        startTime := some 5, stopTime := none, duration := 0, simulate := false }
    queue := []
    processes := []
    completed := []
    failed := [] }

def stRun2 : JobState := (complete_step gSimple 1 "alpha" 0 9 stRun).getD stRun

/-! ### Basic lemmas about the state helpers -/

theorem setStep_steps (st : JobState) (s : String) (v : StepState) (t : String) :
    ((st.setStep s v).steps t) = if t = s then v else st.steps t := rfl

theorem setStep_queue (st : JobState) (s : String) (v : StepState) :
    (st.setStep s v).queue = st.queue := rfl

theorem setStep_processes (st : JobState) (s : String) (v : StepState) :
    (st.setStep s v).processes = st.processes := rfl

theorem setStep_completed (st : JobState) (s : String) (v : StepState) :
    (st.setStep s v).completed = st.completed := rfl

theorem setStep_failed (st : JobState) (s : String) (v : StepState) :
    (st.setStep s v).failed = st.failed := rfl

theorem setStep_steps_same (st : JobState) (s : String) (v : StepState) :
    ((st.setStep s v).steps s) = v := by simp [setStep_steps]

theorem setStep_steps_other (st : JobState) (s : String) (v : StepState) (t : String)
    (h : t ≠ s) : ((st.setStep s v).steps t) = st.steps t := by simp [setStep_steps, h]

theorem mem_sortStr (l : List String) (s : String) : s ∈ sortStr l ↔ s ∈ l :=
  (List.perm_insertionSort _ l).mem_iff

theorem sortStr_length (l : List String) : (sortStr l).length = l.length :=
  (List.perm_insertionSort _ l).length_eq

theorem mem_get_children (g : JobCfg) (s c : String) :
    c ∈ get_children g s ↔ c ∈ g.keys ∧ s ∈ depsL g c := by
  simp [get_children, List.mem_filter, mem_sortStr]

/-! ### The `get_decendents` loop: step equations, soundness, termination -/

theorem get_decendents_aux_nil (g : JobCfg) (n : Nat) (d : List String) :
    get_decendents_aux g n d [] = some d := by cases n <;> rfl

theorem get_decendents_aux_cons (g : JobCfg) (n : Nat) (d : List String) (c : String)
    (rest : List String) :
    get_decendents_aux g (n+1) d (c :: rest) =
      get_decendents_aux g n ((d ++ get_children g c).dedup)
        ((rest ++ get_children g c).dedup) := rfl

open Relation in
theorem get_decendents_aux_sound (g : JobCfg) (root : String) :
    ∀ (fuel : Nat) (d q res : List String),
      (∀ x ∈ d, TransGen (childEdge g) root x) →
      (∀ x ∈ q, ReflTransGen (childEdge g) root x) →
      get_decendents_aux g fuel d q = some res →
      ∀ t ∈ res, TransGen (childEdge g) root t := by
  intro fuel
  induction fuel with
  | zero =>
    intro d q res hd hq hres t ht
    match q with
    | [] => rw [get_decendents_aux_nil] at hres; cases hres; exact hd t ht
    | c :: rest => exact absurd hres (by simp [get_decendents_aux])
  | succ n ih =>
    intro d q res hd hq hres t ht
    match q with
    | [] => rw [get_decendents_aux_nil] at hres; cases hres; exact hd t ht
    | c :: rest =>
      rw [get_decendents_aux_cons] at hres
      refine ih _ _ _ ?_ ?_ hres t ht
      · intro x hx
        rw [List.mem_dedup, List.mem_append] at hx
        rcases hx with hx | hx
        · exact hd x hx
        · exact Relation.TransGen.tail' (hq c (by simp)) hx
      · intro x hx
        rw [List.mem_dedup, List.mem_append] at hx
        rcases hx with hx | hx
        · exact hq x (by simp [hx])
        · exact (Relation.TransGen.tail' (hq c (by simp)) hx).to_reflTransGen

open Relation in
theorem get_decendents_sound (g : JobCfg) (root : String) (fuel : Nat)
    (res : List String) (h : get_decendents g fuel root = some res) :
    ∀ t ∈ res, TransGen (childEdge g) root t := by
  refine get_decendents_aux_sound g root fuel [] [root] res (by simp) ?_ h
  intro x hx
  simp at hx
  subst hx
  exact ReflTransGen.refl

theorem children_length_le (g : JobCfg) (c : String) :
    (get_children g c).length ≤ g.keys.length := by
  calc (get_children g c).length ≤ (sortStr g.keys).length :=
        List.length_filter_le _ _
    _ = g.keys.length := sortStr_length _

/-- Potential of the crawl queue under a ranking function: the sum of
`(B+1)^rank` over its members. -/
def qWeight (B : Nat) (rk : String → Nat) (q : List String) : Nat :=
  (q.map (fun v => (B + 1) ^ rk v)).sum

theorem qWeight_dedup_le (B : Nat) (rk : String → Nat) (q : List String) :
    qWeight B rk q.dedup ≤ qWeight B rk q := by
  apply List.Sublist.sum_le_sum
  · exact (List.dedup_sublist q).map _
  · intro a _; exact Nat.zero_le _

theorem qWeight_append (B : Nat) (rk : String → Nat) (q r : List String) :
    qWeight B rk (q ++ r) = qWeight B rk q + qWeight B rk r := by
  simp [qWeight]

theorem qWeight_decrease (g : JobCfg) (rk : String → Nat)
    (hrk : ∀ u v, childEdge g u v → rk v < rk u) (c : String) (rest : List String) :
    qWeight g.keys.length rk ((rest ++ get_children g c).dedup) <
      qWeight g.keys.length rk (c :: rest) := by
  set B := g.keys.length with hB
  have hch : qWeight B rk (get_children g c) < (B + 1) ^ rk c := by
    rcases Nat.eq_zero_or_pos (rk c) with h0 | hpos
    · have : get_children g c = [] := by
        by_contra hne
        rcases List.exists_mem_of_ne_nil _ hne with ⟨v, hv⟩
        have := hrk c v hv
        omega
      simp [this, qWeight, h0]
    · have hbound : ∀ x ∈ (get_children g c).map (fun v => (B + 1) ^ rk v),
          x ≤ (B + 1) ^ (rk c - 1) := by
        intro x hx
        rcases List.mem_map.mp hx with ⟨v, hv, rfl⟩
        exact Nat.pow_le_pow_right (by omega) (by have := hrk c v hv; omega)
      have hsum := List.sum_le_card_nsmul _ _ hbound
      rw [List.length_map] at hsum
      have hlen := children_length_le g c
      calc qWeight B rk (get_children g c)
          ≤ (get_children g c).length * (B + 1) ^ (rk c - 1) := by
            simpa [qWeight, smul_eq_mul] using hsum
        _ ≤ B * (B + 1) ^ (rk c - 1) := Nat.mul_le_mul_right _ hlen
        _ < (B + 1) * (B + 1) ^ (rk c - 1) := by
            have : 0 < (B + 1) ^ (rk c - 1) := Nat.pos_pow_of_pos _ (by omega)
            exact Nat.mul_lt_mul_of_lt_of_le (by omega) (le_refl _) this
        _ = (B + 1) ^ (rk c - 1 + 1) := by ring
        _ = (B + 1) ^ rk c := by congr 1; omega
  calc qWeight B rk ((rest ++ get_children g c).dedup)
      ≤ qWeight B rk (rest ++ get_children g c) := qWeight_dedup_le _ _ _
    _ = qWeight B rk rest + qWeight B rk (get_children g c) := qWeight_append _ _ _ _
    _ < qWeight B rk rest + (B + 1) ^ rk c := by omega
    _ = qWeight B rk (c :: rest) := by simp [qWeight]; omega

theorem get_decendents_aux_terminates (g : JobCfg) (rk : String → Nat)
    (hrk : ∀ u v, childEdge g u v → rk v < rk u) :
    ∀ n d q, qWeight g.keys.length rk q ≤ n →
      ∃ r, get_decendents_aux g (n + 1) d q = some r := by
  intro n
  induction n with
  | zero =>
    intro d q hq
    match q with
    | [] => exact ⟨d, get_decendents_aux_nil _ _ _⟩
    | c :: rest =>
      exfalso
      have h1 : 0 < (g.keys.length + 1) ^ rk c := Nat.pos_pow_of_pos _ (by omega)
      have h2 : 0 < qWeight g.keys.length rk (c :: rest) := by
        simp only [qWeight, List.map_cons, List.sum_cons]
        omega
      omega
  | succ n ih =>
    intro d q hq
    match q with
    | [] => exact ⟨d, get_decendents_aux_nil _ _ _⟩
    | c :: rest =>
      rw [get_decendents_aux_cons]
      apply ih
      have := qWeight_decrease g rk hrk c rest
      omega

/-! ### The cancellation fold -/

theorem cancel_one_queue (st : JobState) (t : String) : (cancel_one st t).queue = st.queue := by
  unfold cancel_one
  split <;> rfl

theorem cancel_one_processes (st : JobState) (t : String) :
    (cancel_one st t).processes = st.processes := by
  unfold cancel_one
  split <;> rfl

theorem cancel_one_completed (st : JobState) (t : String) :
    (cancel_one st t).completed = st.completed := by
  unfold cancel_one
  split <;> rfl

theorem cancel_one_failed (st : JobState) (t : String) :
    (cancel_one st t).failed = st.failed := by
  unfold cancel_one
  split <;> rfl

theorem cancel_list_queue (l : List String) (st : JobState) :
    (cancel_list l st).queue = st.queue := by
  induction l generalizing st with
  | nil => rfl
  | cons a rest ih =>
    show (cancel_list rest (cancel_one st a)).queue = st.queue
    rw [ih, cancel_one_queue]

theorem cancel_list_processes (l : List String) (st : JobState) :
    (cancel_list l st).processes = st.processes := by
  induction l generalizing st with
  | nil => rfl
  | cons a rest ih =>
    show (cancel_list rest (cancel_one st a)).processes = st.processes
    rw [ih, cancel_one_processes]

theorem cancel_list_completed (l : List String) (st : JobState) :
    (cancel_list l st).completed = st.completed := by
  induction l generalizing st with
  | nil => rfl
  | cons a rest ih =>
    show (cancel_list rest (cancel_one st a)).completed = st.completed
    rw [ih, cancel_one_completed]

theorem cancel_list_failed (l : List String) (st : JobState) :
    (cancel_list l st).failed = st.failed := by
  induction l generalizing st with
  | nil => rfl
  | cons a rest ih =>
    show (cancel_list rest (cancel_one st a)).failed = st.failed
    rw [ih, cancel_one_failed]

/-- Pointwise characterisation of the cancellation fold: a step is set to
canceled exactly when it is listed and currently waiting or queued; every
other step record is untouched. -/
theorem cancel_list_steps (l : List String) (st : JobState) (t : String) :
    (cancel_list l st).steps t =
      if t ∈ l ∧ ((st.steps t).status = .waiting ∨ (st.steps t).status = .queued)
      then { st.steps t with status := .canceled } else st.steps t := by
  induction l generalizing st with
  | nil => simp [cancel_list]
  | cons a rest ih =>
    have hstep : cancel_list (a :: rest) st = cancel_list rest (cancel_one st a) := rfl
    rw [hstep, ih]
    by_cases hta : t = a
    · subst hta
      by_cases hc : (st.steps t).status = .waiting ∨ (st.steps t).status = .queued
      · have h1 : cancel_one st t = set_status st t .canceled := by
          unfold cancel_one; rw [if_pos hc]
        have h2 : (cancel_one st t).steps t = { st.steps t with status := .canceled } := by
          rw [h1, set_status, setStep_steps_same]
        rw [h2]
        simp [hc]
      · have h1 : cancel_one st t = st := by
          unfold cancel_one; rw [if_neg hc]
        rw [h1]
        simp [hc]
    · have h2 : (cancel_one st a).steps t = st.steps t := by
        unfold cancel_one
        split
        · exact setStep_steps_other _ _ _ _ hta
        · rfl
      rw [h2]
      simp [List.mem_cons, hta]

theorem cancel_children_with_steps (ds : List String) (st : JobState) (t : String) :
    (cancel_children_with ds st).steps t =
      if t ∈ ds ∧ ((st.steps t).status = .waiting ∨ (st.steps t).status = .queued)
      then { st.steps t with status := .canceled } else st.steps t := by
  simp only [cancel_children_with, cancel_list_steps, mem_sortStr]

/-! ### `dependencies_met` -/

/-- The set comparison in `dependencies_met` is exactly the subset test. -/
theorem dependencies_met_iff (g : JobCfg) (st : JobState) (s : String) :
    dependencies_met g st s = true ↔
      (g.deps s = none ∨ ∀ d ∈ depsL g s, d ∈ st.completed) := by
  unfold dependencies_met
  cases h : g.deps s with
  | none => simp [h]
  | some ds =>
    simp only [h, decide_eq_true_eq, depsL, Option.getD_some, reduceCtorEq, false_or]
    constructor
    · intro hcard d hd
      have hsub : st.completed.toFinset ∩ ds.toFinset ⊆ ds.toFinset :=
        Finset.inter_subset_right
      have heq : st.completed.toFinset ∩ ds.toFinset = ds.toFinset :=
        Finset.eq_of_subset_of_card_le hsub (le_of_eq hcard)
      have : ds.toFinset ⊆ st.completed.toFinset := by
        rw [← Finset.inter_eq_right]; exact heq
      have := this (List.mem_toFinset.mpr hd)
      exact List.mem_toFinset.mp this
    · intro hsub
      have : ds.toFinset ⊆ st.completed.toFinset := by
        intro d hd
        exact List.mem_toFinset.mpr (hsub d (List.mem_toFinset.mp hd))
      rw [Finset.inter_eq_right.mpr this]

theorem dependencies_met_sub (g : JobCfg) (st : JobState) (s : String)
    (h : dependencies_met g st s = true) : ∀ d ∈ depsL g s, d ∈ st.completed := by
  rcases (dependencies_met_iff g st s).mp h with h0 | h0
  · intro d hd
    rw [depsL, h0] at hd
    simp at hd
  · exact h0

/-! ### Functional characterisation of `complete_step` -/

/-- Full effect of `complete_step` on the state: the queue and the process
table are untouched; on an allowed code the step is appended to `completed`
and marked complete; otherwise it is appended to `failed`, marked failed, and
the waiting/queued members of its computed descendant set are canceled; in
both cases the result code, stop time and duration are recorded. -/
theorem complete_step_cases (g : JobCfg) (fuel : Nat) (s : String) (r now : Int)
    (st st' : JobState) (h : complete_step g fuel s r now st = some st') :
    st'.queue = st.queue ∧ st'.processes = st.processes ∧
    (if r ∈ g.rcAllowed s then
      st'.completed = st.completed ++ [s] ∧ st'.failed = st.failed ∧
      st'.steps s = { st.steps s with
                        status := .complete, resultcode := some r,
                        stopTime := some now,
                        duration := now - ((st.steps s).startTime.getD 0) } ∧
      (∀ t, t ≠ s → st'.steps t = st.steps t)
    else
      ∃ ds, get_decendents g fuel s = some ds ∧
      st'.completed = st.completed ∧ st'.failed = st.failed ++ [s] ∧
      st'.steps s = { st.steps s with
                        status := .failed, resultcode := some r,
                        stopTime := some now,
                        duration := now - ((st.steps s).startTime.getD 0) } ∧
      (∀ t, t ≠ s →
        st'.steps t =
          if t ∈ ds ∧ ((st.steps t).status = .waiting ∨ (st.steps t).status = .queued)
          then { st.steps t with status := .canceled } else st.steps t)) := by
  by_cases hr : r ∈ g.rcAllowed s
  · rw [complete_step, if_pos hr] at h
    cases h
    rw [if_pos hr]
    refine ⟨rfl, rfl, rfl, rfl, ?_, ?_⟩
    · simp [record_stats, set_status, JobState.setStep]
    · intro t ht
      simp [record_stats, set_status, JobState.setStep, ht]
  · rw [complete_step, if_neg hr] at h
    rw [if_neg hr]
    rw [cancel_children] at h
    rcases Option.map_eq_some'.mp h with ⟨st2, h2, hst'⟩
    rcases Option.map_eq_some'.mp h2 with ⟨ds, hds, hst2⟩
    subst hst2
    subst hst'
    set stF : JobState :=
      { set_status st s .failed with failed := st.failed ++ [s] } with hstF
    have hFs : stF.steps s = { st.steps s with status := .failed } := by
      simp [hstF, set_status, JobState.setStep]
    have hFt : ∀ t, t ≠ s → stF.steps t = st.steps t := by
      intro t ht
      simp [hstF, set_status, JobState.setStep, ht]
    have hcs : (cancel_children_with ds stF).steps s = stF.steps s := by
      rw [cancel_children_with_steps, hFs]
      simp
    refine ⟨?_, ?_, ds, hds, ?_, ?_, ?_, ?_⟩
    · show (cancel_children_with ds stF).queue = st.queue
      rw [cancel_children_with, cancel_list_queue]
      rfl
    · show (cancel_children_with ds stF).processes = st.processes
      rw [cancel_children_with, cancel_list_processes]
      rfl
    · show (cancel_children_with ds stF).completed = st.completed
      rw [cancel_children_with, cancel_list_completed]
      rfl
    · show (cancel_children_with ds stF).failed = st.failed ++ [s]
      rw [cancel_children_with, cancel_list_failed]
    · show (record_stats s r now (cancel_children_with ds stF)).steps s = _
      rw [record_stats]
      rw [setStep_steps_same, hcs, hFs]
    · intro t ht
      show (record_stats s r now (cancel_children_with ds stF)).steps t = _
      rw [record_stats, setStep_steps_other _ _ _ _ ht]
      rw [cancel_children_with_steps, hFt t ht]

/-! ### Process-table update lemmas -/

theorem update_proc_fst_mem (ps : List (String × ProcEntry)) (s : String) (e : ProcEntry)
    (t : String) :
    t ∈ (update_proc ps s e).map Prod.fst ↔ t ∈ ps.map Prod.fst ∨ t = s := by
  unfold update_proc
  split
  · constructor
    · intro ht
      rcases List.mem_map.mp ht with ⟨p, hp, hfst⟩
      rcases List.mem_map.mp hp with ⟨p0, hp0, hpeq⟩
      by_cases h0 : p0.1 = s
      · right
        rw [if_pos h0] at hpeq
        subst hpeq
        exact hfst.symm
      · left
        rw [if_neg h0] at hpeq
        subst hpeq
        subst hfst
        exact List.mem_map.mpr ⟨p0, hp0, rfl⟩
    · intro ht
      rcases ht with ht | ht
      · rcases List.mem_map.mp ht with ⟨p0, hp0, hfst⟩
        apply List.mem_map.mpr
        by_cases h0 : p0.1 = s
        · exact ⟨(s, e), List.mem_map.mpr ⟨p0, hp0, by rw [if_pos h0]⟩, by rw [← hfst, h0]⟩
        · exact ⟨p0, List.mem_map.mpr ⟨p0, hp0, by rw [if_neg h0]⟩, hfst⟩
      · subst ht
        rename_i hany
        rcases List.any_eq_true.mp hany with ⟨p0, hp0, hps⟩
        have h0 : p0.1 = t := of_decide_eq_true hps
        apply List.mem_map.mpr
        exact ⟨(t, e), List.mem_map.mpr ⟨p0, hp0, by rw [if_pos h0]⟩, rfl⟩
  · simp only [List.map_append, List.mem_append, List.map_cons, List.map_nil,
      List.mem_singleton, List.mem_cons]
    tauto

theorem lookup_cons_pair (t k : String) (v : ProcEntry) (rest : List (String × ProcEntry)) :
    List.lookup t ((k, v) :: rest) =
      if t = k then some v else List.lookup t rest := by
  simp only [List.lookup]
  by_cases h : t = k
  · have hb : (t == k) = true := by simp [h]
    rw [hb, if_pos h]
  · have hb : (t == k) = false := by simp [h]
    rw [hb, if_neg h]

theorem lookup_append_singleton (ps : List (String × ProcEntry)) (s t : String)
    (e : ProcEntry) :
    List.lookup t (ps ++ [(s, e)]) =
      match List.lookup t ps with
      | some v => some v
      | none => if t = s then some e else none := by
  induction ps with
  | nil =>
    rw [List.nil_append, lookup_cons_pair]
    rfl
  | cons p rest ih =>
    obtain ⟨k, v⟩ := p
    rw [List.cons_append, lookup_cons_pair, lookup_cons_pair]
    by_cases htk : t = k
    · rw [if_pos htk, if_pos htk]
    · rw [if_neg htk, if_neg htk]
      exact ih

theorem lookup_map_overwrite (ps : List (String × ProcEntry)) (s : String) (e : ProcEntry)
    (t : String) (ht : t ≠ s) :
    List.lookup t (ps.map (fun p => if p.1 = s then (s, e) else p)) = List.lookup t ps := by
  induction ps with
  | nil => rfl
  | cons p rest ih =>
    obtain ⟨k, v⟩ := p
    rw [List.map_cons]
    by_cases h0 : k = s
    · have hmap : (if (k, v).1 = s then (s, e) else (k, v)) = (s, e) := by simp [h0]
      rw [hmap, lookup_cons_pair, lookup_cons_pair, if_neg ht, if_neg (h0 ▸ ht)]
      exact ih
    · have hmap : (if (k, v).1 = s then (s, e) else (k, v)) = (k, v) := by simp [h0]
      rw [hmap, lookup_cons_pair, lookup_cons_pair]
      by_cases htk : t = k
      · rw [if_pos htk, if_pos htk]
      · rw [if_neg htk, if_neg htk]
        exact ih

theorem lookup_eq_none_of_not_any (ps : List (String × ProcEntry)) (s : String)
    (h : ¬ (ps.any fun p => decide (p.1 = s)) = true) :
    List.lookup s ps = none := by
  induction ps with
  | nil => rfl
  | cons p rest ih =>
    obtain ⟨k, v⟩ := p
    simp only [List.any_cons, Bool.or_eq_true] at h
    have h1 : ¬ k = s := fun hc => h (Or.inl (by simp [hc]))
    have h2 : ¬ (rest.any fun p => decide (p.1 = s)) = true := fun hc => h (Or.inr hc)
    rw [lookup_cons_pair, if_neg (fun hc => h1 hc.symm)]
    exact ih h2

theorem update_proc_lookup_other (ps : List (String × ProcEntry)) (s : String)
    (e : ProcEntry) (t : String) (ht : t ≠ s) :
    List.lookup t (update_proc ps s e) = List.lookup t ps := by
  unfold update_proc
  split
  · exact lookup_map_overwrite ps s e t ht
  · rw [lookup_append_singleton]
    cases h : List.lookup t ps
    · rw [if_neg ht]
    · rfl

theorem update_proc_lookup_self (ps : List (String × ProcEntry)) (s : String)
    (e : ProcEntry) : List.lookup s (update_proc ps s e) = some e := by
  unfold update_proc
  split
  · rename_i hany
    induction ps with
    | nil => simp at hany
    | cons p rest ih =>
      obtain ⟨k, v⟩ := p
      rw [List.map_cons]
      by_cases h0 : k = s
      · have hmap : (if (k, v).1 = s then (s, e) else (k, v)) = (s, e) := by simp [h0]
        rw [hmap, lookup_cons_pair, if_pos rfl]
      · have hmap : (if (k, v).1 = s then (s, e) else (k, v)) = (k, v) := by simp [h0]
        rw [hmap, lookup_cons_pair, if_neg (fun hc => h0 hc.symm)]
        apply ih
        simp only [List.any_cons, Bool.or_eq_true] at hany
        rcases hany with h | h
        · exact absurd (of_decide_eq_true h) h0
        · exact h
  · rename_i hany
    rw [lookup_append_singleton, lookup_eq_none_of_not_any ps s hany, if_pos rfl]

/-! ### Counting running steps -/

theorem runningFlag_iff (x : Status) : x.runningFlag = true ↔ x = .running := by
  cases x <;> simp [Status.runningFlag]

theorem runningCount_le_of_pointwise (g : JobCfg) (st st' : JobState)
    (h : ∀ t, (st'.steps t).status = .running → (st.steps t).status = .running) :
    runningCount g st' ≤ runningCount g st := by
  apply List.Sublist.length_le
  apply List.monotone_filter_right
  intro t
  simp only [Bool.le_iff_imp, runningFlag_iff]
  exact h t

theorem runningCount_set_running (g : JobCfg) (st st' : JobState) (s : String)
    (hk : g.keys.Nodup) (hs : s ∈ g.keys)
    (hns : (st.steps s).status ≠ .running)
    (heq : ∀ t, t ≠ s → (st'.steps t).status = (st.steps t).status)
    (hss : (st'.steps s).status = .running) :
    runningCount g st' = runningCount g st + 1 := by
  unfold runningCount get_running_steps
  have key : ∀ (stx : JobState),
      (g.keys.filter (fun t => ((stx.steps t).status).runningFlag)).length =
        (g.keys.toFinset.filter (fun t => (stx.steps t).status = .running)).card := by
    intro stx
    rw [← List.toFinset_card_of_nodup (hk.filter _)]
    congr 1
    rw [List.toFinset_filter]
    apply Finset.filter_congr
    intro t _
    simp [runningFlag_iff]
  rw [key st, key st']
  have hset : g.keys.toFinset.filter (fun t => (st'.steps t).status = .running) =
      insert s (g.keys.toFinset.filter (fun t => (st.steps t).status = .running)) := by
    ext t
    simp only [Finset.mem_filter, Finset.mem_insert, List.mem_toFinset]
    constructor
    · rintro ⟨htk, hrun⟩
      by_cases hts : t = s
      · exact Or.inl hts
      · exact Or.inr ⟨htk, by rw [← heq t hts]; exact hrun⟩
    · rintro (hts | ⟨htk, hrun⟩)
      · subst hts
        exact ⟨hs, hss⟩
      · refine ⟨htk, ?_⟩
        by_cases hts : t = s
        · subst hts; exact absurd hrun hns
        · rw [heq t hts]; exact hrun
  rw [hset, Finset.card_insert_of_not_mem]
  simp only [Finset.mem_filter, List.mem_toFinset, not_and]
  intro _
  exact hns

/-! ### The chain argument: ancestors of completed or queued steps -/

open Relation in
theorem chain_completed (g : JobCfg) (st : JobState) (hg : Good g st) :
    ∀ x t, ReflTransGen (childEdge g) x t → t ∈ st.completed → x ∈ st.completed := by
  intro x t h
  induction h with
  | refl => exact id
  | tail hab hbc ih =>
    rename_i b c
    intro hc
    have hstat := hg.completed_status c hc
    have hdisp : DispStatus (st.steps c).status := by
      rw [hstat]; right; right; left; rfl
    have hdeps := hg.deps_comp c hdisp
    have hbdep : b ∈ depsL g c := ((mem_get_children g b c).mp hbc).2
    exact ih (hdeps b hbdep)

open Relation in
theorem no_queued_descendant (g : JobCfg) (st : JobState) (hg : Good g st)
    (root : String) (hroot : root ∉ st.completed) :
    ∀ t, TransGen (childEdge g) root t → (st.steps t).status ≠ .queued := by
  intro t htg hq
  rcases Relation.TransGen.tail'_iff.mp htg with ⟨b, hrb, hbt⟩
  have hdisp : DispStatus (st.steps t).status := by
    rw [hq]; left; rfl
  have hdeps := hg.deps_comp t hdisp
  have hbdep : b ∈ depsL g t := ((mem_get_children g b t).mp hbt).2
  exact hroot (chain_completed g st hg root b hrb (hdeps b hbdep))

/-! ### Invariant preservation by `complete_step` -/

theorem complete_step_good (g : JobCfg) (fuel : Nat) (s : String) (r now : Int)
    (st st' : JobState) (hg : Good g st) (hk : s ∈ g.keys)
    (hs : (st.steps s).status = .running ∨ (st.steps s).status = .aborted)
    (h : complete_step g fuel s r now st = some st') :
    Good g st' ∧
    st'.queue = st.queue ∧
    st'.processes = st.processes ∧
    (∀ t, t ∈ st.completed → t ∈ st'.completed) ∧
    (∀ t, t ≠ s → (st.steps t).status ≠ .waiting → st'.steps t = st.steps t) ∧
    (∀ t, t ≠ s → ((st.steps t).status = .waiting ∨ (st.steps t).status = .canceled) →
      ((st'.steps t).status = .waiting ∨ (st'.steps t).status = .canceled)) ∧
    (∀ t, (st'.steps t).status = .running → (st.steps t).status = .running) ∧
    ((st'.steps s).status = .complete ∨ (st'.steps s).status = .failed) := by
  have hsnotc : s ∉ st.completed := by
    intro hc
    have := hg.completed_status s hc
    rcases hs with h1 | h1 <;> rw [h1] at this <;> exact absurd this (by intro hcc; cases hcc)
  have hsnotf : s ∉ st.failed := by
    intro hc
    have := hg.failed_status s hc
    rcases hs with h1 | h1 <;> rw [h1] at this <;> exact absurd this (by intro hcc; cases hcc)
  have hsnotq : s ∉ st.queue := by
    intro hc
    have := hg.queue_status s hc
    rcases hs with h1 | h1 <;> rw [h1] at this <;> exact absurd this (by intro hcc; cases hcc)
  have hsdisp : DispStatus (st.steps s).status := by
    rcases hs with h1 | h1 <;> rw [h1]
    · right; left; rfl
    · right; right; right; right; rfl
  obtain ⟨hqe, hpe, hif⟩ := complete_step_cases g fuel s r now st st' h
  by_cases hr : r ∈ g.rcAllowed s
  · rw [if_pos hr] at hif
    obtain ⟨hce, hfe, hss, hframe⟩ := hif
    have hss' : (st'.steps s).status = .complete := by rw [hss]
    have hcm : ∀ t, t ∈ st.completed → t ∈ st'.completed := by
      intro t ht
      rw [hce]
      exact List.mem_append_left _ ht
    have hgood : Good g st' := by
      constructor
      · rw [hqe]; exact hg.queue_nodup
      · intro t ht
        rw [hqe] at ht
        have hts : t ≠ s := fun hts => hsnotq (hts ▸ ht)
        rw [hframe t hts]
        exact hg.queue_status t ht
      · intro t ht
        by_cases hts : t = s
        · subst hts
          rw [hss'] at ht
          cases ht
        · rw [hframe t hts] at ht
          rw [hqe]
          exact hg.queued_mem t ht
      · intro t ht
        rw [hqe] at ht
        exact hg.queue_sub t ht
      · intro t ht
        rw [hce] at ht
        rcases List.mem_append.mp ht with ht | ht
        · have hts : t ≠ s := fun hts => hsnotc (hts ▸ ht)
          rw [hframe t hts]
          exact hg.completed_status t ht
        · have hts : t = s := by simpa using ht
          subst hts
          exact hss'
      · intro t ht
        by_cases hts : t = s
        · subst hts
          rw [hce]
          exact List.mem_append_right _ (by simp)
        · rw [hframe t hts] at ht
          exact hcm t (hg.complete_mem t ht)
      · rw [hce]
        rw [List.nodup_append]
        refine ⟨hg.completed_nodup, List.nodup_singleton s, ?_⟩
        intro a ha hb
        simp only [List.mem_singleton] at hb
        subst hb
        exact hsnotc ha
      · intro t ht
        rw [hce] at ht
        rcases List.mem_append.mp ht with ht | ht
        · exact hg.completed_sub t ht
        · have hts : t = s := by simpa using ht
          subst hts
          exact hk
      · intro t ht
        rw [hfe] at ht
        have hts : t ≠ s := fun hts => hsnotf (hts ▸ ht)
        rw [hframe t hts]
        exact hg.failed_status t ht
      · intro t ht
        by_cases hts : t = s
        · subst hts
          rw [hss'] at ht
          cases ht
        · rw [hframe t hts] at ht
          rw [hfe]
          exact hg.failed_mem t ht
      · intro t ht d hd
        by_cases hts : t = s
        · subst hts
          exact hcm d (hg.deps_comp t hsdisp d hd)
        · rw [hframe t hts] at ht
          exact hcm d (hg.deps_comp t ht d hd)
      · intro t ht
        rw [hpe] at ht
        by_cases hts : t = s
        · subst hts
          rw [hss']
          right; left; rfl
        · rw [hframe t hts]
          exact hg.procs_status t ht
      · intro t ht
        rw [hpe] at ht
        exact hg.procs_sub t ht
    refine ⟨hgood, hqe, hpe, hcm, ?_, ?_, ?_, Or.inl hss'⟩
    · intro t hts _
      exact hframe t hts
    · intro t hts hwc
      rw [hframe t hts]
      exact hwc
    · intro t ht
      by_cases hts : t = s
      · subst hts
        rw [hss'] at ht
        cases ht
      · rw [hframe t hts] at ht
        exact ht
  · rw [if_neg hr] at hif
    obtain ⟨ds, hds, hce, hfe, hss, hframe⟩ := hif
    have hss' : (st'.steps s).status = .failed := by rw [hss]
    have hnq : ∀ t ∈ ds, (st.steps t).status ≠ .queued := fun t ht =>
      no_queued_descendant g st hg s hsnotc t (get_decendents_sound g s fuel ds hds t ht)
    have hframe' : ∀ t, t ≠ s → (st.steps t).status ≠ .waiting → st'.steps t = st.steps t := by
      intro t hts hw
      rw [hframe t hts]
      rw [if_neg]
      rintro ⟨htds, hwq | hwq⟩
      · exact hw hwq
      · exact hnq t htds hwq
    have hcm : ∀ t, t ∈ st.completed → t ∈ st'.completed := by
      intro t ht
      rw [hce]
      exact ht
    have hstat : ∀ t, t ≠ s →
        (st'.steps t).status = (st.steps t).status ∨
        ((st.steps t).status = .waiting ∧ (st'.steps t).status = .canceled) := by
      intro t hts
      rw [hframe t hts]
      by_cases hcond : t ∈ ds ∧
          ((st.steps t).status = .waiting ∨ (st.steps t).status = .queued)
      · rw [if_pos hcond]
        rcases hcond with ⟨htds, hwq | hwq⟩
        · exact Or.inr ⟨hwq, rfl⟩
        · exact absurd hwq (hnq t htds)
      · rw [if_neg hcond]
        exact Or.inl rfl
    have hgood : Good g st' := by
      constructor
      · rw [hqe]; exact hg.queue_nodup
      · intro t ht
        rw [hqe] at ht
        have hts : t ≠ s := fun hts => hsnotq (hts ▸ ht)
        have hq := hg.queue_status t ht
        rw [hframe' t hts (by rw [hq]; intro hcc; cases hcc)]
        exact hq
      · intro t ht
        by_cases hts : t = s
        · subst hts
          rw [hss'] at ht
          cases ht
        · rcases hstat t hts with heq | ⟨_, hcl⟩
          · rw [hqe]
            exact hg.queued_mem t (heq ▸ ht)
          · rw [hcl] at ht
            cases ht
      · intro t ht
        rw [hqe] at ht
        exact hg.queue_sub t ht
      · intro t ht
        rw [hce] at ht
        have hts : t ≠ s := fun hts => hsnotc (hts ▸ ht)
        have hst := hg.completed_status t ht
        rw [hframe' t hts (by rw [hst]; intro hcc; cases hcc)]
        exact hst
      · intro t ht
        by_cases hts : t = s
        · subst hts
          rw [hss'] at ht
          cases ht
        · rcases hstat t hts with heq | ⟨_, hcl⟩
          · rw [hce]
            exact hg.complete_mem t (heq ▸ ht)
          · rw [hcl] at ht
            cases ht
      · rw [hce]; exact hg.completed_nodup
      · intro t ht
        rw [hce] at ht
        exact hg.completed_sub t ht
      · intro t ht
        rw [hfe] at ht
        rcases List.mem_append.mp ht with ht | ht
        · have hts : t ≠ s := fun hts => hsnotf (hts ▸ ht)
          have hst := hg.failed_status t ht
          rw [hframe' t hts (by rw [hst]; intro hcc; cases hcc)]
          exact hst
        · have hts : t = s := by simpa using ht
          subst hts
          exact hss'
      · intro t ht
        by_cases hts : t = s
        · subst hts
          rw [hfe]
          exact List.mem_append_right _ (by simp)
        · rcases hstat t hts with heq | ⟨_, hcl⟩
          · rw [hfe]
            exact List.mem_append_left _ (hg.failed_mem t (heq ▸ ht))
          · rw [hcl] at ht
            cases ht
      · intro t ht d hd
        by_cases hts : t = s
        · subst hts
          exact hcm d (hg.deps_comp t hsdisp d hd)
        · rcases hstat t hts with heq | ⟨_, hcl⟩
          · exact hcm d (hg.deps_comp t (heq ▸ ht) d hd)
          · rw [hcl] at ht
            rcases ht with h1 | h1 | h1 | h1 | h1 <;> cases h1
      · intro t ht
        rw [hpe] at ht
        by_cases hts : t = s
        · subst hts
          rw [hss']
          right; right; left; rfl
        · have hps := hg.procs_status t ht
          have hnw : (st.steps t).status ≠ .waiting := by
            rcases hps with h1 | h1 | h1 | h1 <;> rw [h1] <;> intro hcc <;> cases hcc
          rw [hframe' t hts hnw]
          exact hps
      · intro t ht
        rw [hpe] at ht
        exact hg.procs_sub t ht
    refine ⟨hgood, hqe, hpe, hcm, hframe', ?_, ?_, Or.inr hss'⟩
    · intro t hts hwc
      rcases hstat t hts with heq | ⟨_, hcl⟩
      · rw [heq]
        exact hwc
      · exact Or.inr hcl
    · intro t ht
      by_cases hts : t = s
      · subst hts
        rw [hss'] at ht
        cases ht
      · rcases hstat t hts with heq | ⟨_, hcl⟩
        · exact heq ▸ ht
        · rw [hcl] at ht
          cases ht

/-! ### Invariant preservation by dispatch and queueing -/

theorem dispatch_mark_good (g : JobCfg) (st : JobState) (s : String) (rest : List String)
    (now : Int) (hg : Good g st) (hqe : st.queue = s :: rest) :
    Good g (dispatch_mark s now { st with queue := rest }) := by
  have hsq : (st.steps s).status = .queued := hg.queue_status s (by rw [hqe]; simp)
  have hsk : s ∈ g.keys := hg.queue_sub s (by rw [hqe]; simp)
  have hnodup := hg.queue_nodup
  rw [hqe] at hnodup
  have hnrest : s ∉ rest := (List.nodup_cons.mp hnodup).1
  have hsteps_s : ((dispatch_mark s now { st with queue := rest }).steps s) =
      { st.steps s with status := .running, startTime := some now } := by
    rw [dispatch_mark, setStep_steps_same]
  have hsteps_t : ∀ t, t ≠ s →
      ((dispatch_mark s now { st with queue := rest }).steps t) = st.steps t := by
    intro t ht
    rw [dispatch_mark, setStep_steps_other _ _ _ _ ht]
  have hsnotc : s ∉ st.completed := by
    intro hc
    have := hg.completed_status s hc
    rw [hsq] at this
    cases this
  have hsnotf : s ∉ st.failed := by
    intro hc
    have := hg.failed_status s hc
    rw [hsq] at this
    cases this
  constructor
  · show rest.Nodup
    exact (List.nodup_cons.mp hnodup).2
  · intro t ht
    have hts : t ≠ s := fun hts => hnrest (hts ▸ ht)
    rw [hsteps_t t hts]
    exact hg.queue_status t (by rw [hqe]; exact List.mem_cons_of_mem _ ht)
  · intro t ht
    by_cases hts : t = s
    · subst hts
      rw [hsteps_s] at ht
      cases ht
    · rw [hsteps_t t hts] at ht
      have := hg.queued_mem t ht
      rw [hqe] at this
      rcases List.mem_cons.mp this with h1 | h1
      · exact absurd h1 hts
      · exact h1
  · intro t ht
    exact hg.queue_sub t (by rw [hqe]; exact List.mem_cons_of_mem _ ht)
  · intro t ht
    have hts : t ≠ s := fun hts => hsnotc (hts ▸ ht)
    rw [hsteps_t t hts]
    exact hg.completed_status t ht
  · intro t ht
    by_cases hts : t = s
    · subst hts
      rw [hsteps_s] at ht
      cases ht
    · rw [hsteps_t t hts] at ht
      exact hg.complete_mem t ht
  · exact hg.completed_nodup
  · exact hg.completed_sub
  · intro t ht
    have hts : t ≠ s := fun hts => hsnotf (hts ▸ ht)
    rw [hsteps_t t hts]
    exact hg.failed_status t ht
  · intro t ht
    by_cases hts : t = s
    · subst hts
      rw [hsteps_s] at ht
      cases ht
    · rw [hsteps_t t hts] at ht
      exact hg.failed_mem t ht
  · intro t ht d hd
    by_cases hts : t = s
    · subst hts
      refine hg.deps_comp t ?_ d hd
      rw [hsq]
      left; rfl
    · rw [hsteps_t t hts] at ht
      exact hg.deps_comp t ht d hd
  · intro t ht
    by_cases hts : t = s
    · subst hts
      have := hg.procs_status t ht
      rw [hsq] at this
      rcases this with h1 | h1 | h1 | h1 <;> cases h1
    · rw [hsteps_t t hts]
      exact hg.procs_status t ht
  · intro t ht
    exact hg.procs_sub t ht

theorem good_update_os (g : JobCfg) (st1 st2 : JobState) (s : String) (e : ProcEntry)
    (hg1 : Good g st1) (hsk : s ∈ g.keys)
    (hrun1 : (st1.steps s).status = .running)
    (hss : (st2.steps s).status = .running)
    (hst : ∀ t, t ≠ s → st2.steps t = st1.steps t)
    (hq : st2.queue = st1.queue)
    (hc : st2.completed = st1.completed)
    (hf : st2.failed = st1.failed)
    (hp : st2.processes = update_proc st1.processes s e) :
    Good g st2 := by
  have hsnq : s ∉ st1.queue := by
    intro hc2
    have := hg1.queue_status s hc2
    rw [hrun1] at this
    cases this
  have hsnotc : s ∉ st1.completed := by
    intro hc2
    have := hg1.completed_status s hc2
    rw [hrun1] at this
    cases this
  have hsnotf : s ∉ st1.failed := by
    intro hc2
    have := hg1.failed_status s hc2
    rw [hrun1] at this
    cases this
  constructor
  · rw [hq]; exact hg1.queue_nodup
  · intro t ht
    rw [hq] at ht
    have hts : t ≠ s := fun hts => hsnq (hts ▸ ht)
    rw [hst t hts]
    exact hg1.queue_status t ht
  · intro t ht
    by_cases hts : t = s
    · subst hts
      rw [hss] at ht
      cases ht
    · rw [hst t hts] at ht
      rw [hq]
      exact hg1.queued_mem t ht
  · intro t ht
    rw [hq] at ht
    exact hg1.queue_sub t ht
  · intro t ht
    rw [hc] at ht
    have hts : t ≠ s := fun hts => hsnotc (hts ▸ ht)
    rw [hst t hts]
    exact hg1.completed_status t ht
  · intro t ht
    by_cases hts : t = s
    · subst hts
      rw [hss] at ht
      cases ht
    · rw [hst t hts] at ht
      rw [hc]
      exact hg1.complete_mem t ht
  · rw [hc]; exact hg1.completed_nodup
  · intro t ht
    rw [hc] at ht
    exact hg1.completed_sub t ht
  · intro t ht
    rw [hf] at ht
    have hts : t ≠ s := fun hts => hsnotf (hts ▸ ht)
    rw [hst t hts]
    exact hg1.failed_status t ht
  · intro t ht
    by_cases hts : t = s
    · subst hts
      rw [hss] at ht
      cases ht
    · rw [hst t hts] at ht
      rw [hf]
      exact hg1.failed_mem t ht
  · intro t ht d hd
    rw [hc]
    by_cases hts : t = s
    · subst hts
      refine hg1.deps_comp t ?_ d hd
      rw [hrun1]; right; left; rfl
    · rw [hst t hts] at ht
      exact hg1.deps_comp t ht d hd
  · intro t ht
    rw [hp] at ht
    by_cases hts : t = s
    · subst hts
      rw [hss]
      left; rfl
    · rcases (update_proc_fst_mem _ _ _ _).mp ht with h1 | h1
      · rw [hst t hts]
        exact hg1.procs_status t h1
      · exact absurd h1 hts
  · intro t ht
    rw [hp] at ht
    rcases (update_proc_fst_mem _ _ _ _).mp ht with h1 | h1
    · exact hg1.procs_sub t h1
    · subst h1
      exact hsk

theorem queue_step_good (g : JobCfg) (st : JobState) (s : String) (now : Int)
    (hg : Good g st) (hk : s ∈ g.keys)
    (hw : (st.steps s).status = .waiting) (hnq : s ∉ st.queue)
    (hdm : dependencies_met g st s = true) :
    Good g (queue_step st s now) := by
  have hsteps_s : ((queue_step st s now).steps s) =
      { st.steps s with status := .queued, queuedTime := some now } := by
    rw [queue_step]
    show (st.setStep s _).steps s = _
    rw [setStep_steps_same]
  have hsteps_t : ∀ t, t ≠ s → ((queue_step st s now).steps t) = st.steps t := by
    intro t ht
    rw [queue_step]
    show (st.setStep s _).steps t = _
    rw [setStep_steps_other _ _ _ _ ht]
  have hque : (queue_step st s now).queue = st.queue ++ [s] := rfl
  have hcomp : (queue_step st s now).completed = st.completed := rfl
  have hfail : (queue_step st s now).failed = st.failed := rfl
  have hproc : (queue_step st s now).processes = st.processes := rfl
  have hsnotc : s ∉ st.completed := by
    intro hc
    have := hg.completed_status s hc
    rw [hw] at this
    cases this
  have hsnotf : s ∉ st.failed := by
    intro hc
    have := hg.failed_status s hc
    rw [hw] at this
    cases this
  constructor
  · rw [hque, List.nodup_append]
    refine ⟨hg.queue_nodup, List.nodup_singleton s, ?_⟩
    intro a ha hb
    simp only [List.mem_singleton] at hb
    subst hb
    exact hnq ha
  · intro t ht
    rw [hque] at ht
    rcases List.mem_append.mp ht with ht | ht
    · have hts : t ≠ s := fun hts => hnq (hts ▸ ht)
      rw [hsteps_t t hts]
      exact hg.queue_status t ht
    · have hts : t = s := by simpa using ht
      subst hts
      rw [hsteps_s]
  · intro t ht
    rw [hque]
    by_cases hts : t = s
    · subst hts
      exact List.mem_append_right _ (by simp)
    · rw [hsteps_t t hts] at ht
      exact List.mem_append_left _ (hg.queued_mem t ht)
  · intro t ht
    rw [hque] at ht
    rcases List.mem_append.mp ht with ht | ht
    · exact hg.queue_sub t ht
    · have hts : t = s := by simpa using ht
      subst hts
      exact hk
  · intro t ht
    rw [hcomp] at ht
    have hts : t ≠ s := fun hts => hsnotc (hts ▸ ht)
    rw [hsteps_t t hts]
    exact hg.completed_status t ht
  · intro t ht
    by_cases hts : t = s
    · subst hts
      rw [hsteps_s] at ht
      cases ht
    · rw [hsteps_t t hts] at ht
      rw [hcomp]
      exact hg.complete_mem t ht
  · rw [hcomp]; exact hg.completed_nodup
  · intro t ht
    rw [hcomp] at ht
    exact hg.completed_sub t ht
  · intro t ht
    rw [hfail] at ht
    have hts : t ≠ s := fun hts => hsnotf (hts ▸ ht)
    rw [hsteps_t t hts]
    exact hg.failed_status t ht
  · intro t ht
    by_cases hts : t = s
    · subst hts
      rw [hsteps_s] at ht
      cases ht
    · rw [hsteps_t t hts] at ht
      rw [hfail]
      exact hg.failed_mem t ht
  · intro t ht d hd
    rw [hcomp]
    by_cases hts : t = s
    · subst hts
      exact dependencies_met_sub g st t hdm d hd
    · rw [hsteps_t t hts] at ht
      exact hg.deps_comp t ht d hd
  · intro t ht
    rw [hproc] at ht
    by_cases hts : t = s
    · subst hts
      have := hg.procs_status t ht
      rw [hw] at this
      rcases this with h1 | h1 | h1 | h1 <;> cases h1
    · rw [hsteps_t t hts]
      exact hg.procs_status t ht
  · intro t ht
    rw [hproc] at ht
    exact hg.procs_sub t ht

theorem dependencies_met_congr (g : JobCfg) (st1 st2 : JobState) (t : String)
    (h : st1.completed = st2.completed) :
    dependencies_met g st1 t = dependencies_met g st2 t := by
  unfold dependencies_met
  cases g.deps t
  · rfl
  · rw [h]

/-- Effect of the `queue_runnables` loop: the invariant is preserved, the
completed/failed/process parts are untouched, every step either keeps its
record or moves from waiting to queued, and a step whose dependencies are not
met (with respect to the unchanged completed list) keeps its record. -/
theorem queue_runnables_aux_spec (g : JobCfg) (now : Int) :
    ∀ (l : List String) (st : JobState), Good g st → (∀ s ∈ l, s ∈ g.keys) →
    Good g (queue_runnables_aux g now l st) ∧
    (queue_runnables_aux g now l st).completed = st.completed ∧
    (queue_runnables_aux g now l st).failed = st.failed ∧
    (queue_runnables_aux g now l st).processes = st.processes ∧
    (∀ t, (queue_runnables_aux g now l st).steps t = st.steps t ∨
      ((st.steps t).status = .waiting ∧
        ((queue_runnables_aux g now l st).steps t).status = .queued)) ∧
    (∀ t, dependencies_met g st t = false →
      (queue_runnables_aux g now l st).steps t = st.steps t) := by
  intro l
  induction l with
  | nil =>
    intro st hg _
    exact ⟨hg, rfl, rfl, rfl, fun t => Or.inl rfl, fun t _ => rfl⟩
  | cons s rest ih =>
    intro st hg hl
    have hsk : s ∈ g.keys := hl s (by simp)
    have hrest : ∀ x ∈ rest, x ∈ g.keys := fun x hx => hl x (List.mem_cons_of_mem _ hx)
    by_cases hcond : (st.steps s).status = .waiting ∧ s ∉ st.queue ∧
        dependencies_met g st s = true
    · have hstep : queue_runnables_aux g now (s :: rest) st =
          queue_runnables_aux g now rest (queue_step st s now) := by
        rw [queue_runnables_aux, if_pos hcond]
      obtain ⟨hw, hnq, hdm⟩ := hcond
      have hg1 := queue_step_good g st s now hg hsk hw hnq hdm
      obtain ⟨ha, hb, hc, hd, he, hf⟩ := ih (queue_step st s now) hg1 hrest
      have hq1c : (queue_step st s now).completed = st.completed := rfl
      have hq1f : (queue_step st s now).failed = st.failed := rfl
      have hq1p : (queue_step st s now).processes = st.processes := rfl
      have hsteps_s : ((queue_step st s now).steps s) =
          { st.steps s with status := .queued, queuedTime := some now } := by
        rw [queue_step]
        show (st.setStep s _).steps s = _
        rw [setStep_steps_same]
      have hsteps_t : ∀ t, t ≠ s → ((queue_step st s now).steps t) = st.steps t := by
        intro t ht
        rw [queue_step]
        show (st.setStep s _).steps t = _
        rw [setStep_steps_other _ _ _ _ ht]
      rw [hstep]
      refine ⟨ha, by rw [hb, hq1c], by rw [hc, hq1f], by rw [hd, hq1p], ?_, ?_⟩
      · intro t
        by_cases hts : t = s
        · subst hts
          rcases he t with h1 | ⟨h1, _⟩
          · right
            refine ⟨hw, ?_⟩
            rw [h1, hsteps_s]
          · rw [hsteps_s] at h1
            cases h1
        · rcases he t with h1 | ⟨h1, h2⟩
          · left
            rw [h1, hsteps_t t hts]
          · right
            rw [hsteps_t t hts] at h1
            exact ⟨h1, h2⟩
      · intro t hdmf
        by_cases hts : t = s
        · subst hts
          rw [hdm] at hdmf
          cases hdmf
        · have : dependencies_met g (queue_step st s now) t = false := by
            rw [← dependencies_met_congr g st (queue_step st s now) t hq1c.symm]
            exact hdmf
          rw [hf t this, hsteps_t t hts]
    · have hstep : queue_runnables_aux g now (s :: rest) st =
          queue_runnables_aux g now rest st := by
        rw [queue_runnables_aux, if_neg hcond]
      rw [hstep]
      exact ih st hg hrest

/-- Effect of `queue_runnables` itself. -/
theorem queue_runnables_spec (g : JobCfg) (now : Int) (st : JobState) (hg : Good g st) :
    Good g (queue_runnables g now st) ∧
    (queue_runnables g now st).completed = st.completed ∧
    (queue_runnables g now st).failed = st.failed ∧
    (queue_runnables g now st).processes = st.processes ∧
    (∀ t, (queue_runnables g now st).steps t = st.steps t ∨
      ((st.steps t).status = .waiting ∧
        ((queue_runnables g now st).steps t).status = .queued)) ∧
    (∀ t, dependencies_met g st t = false →
      (queue_runnables g now st).steps t = st.steps t) := by
  apply queue_runnables_aux_spec g now (sortStr g.keys) st hg
  intro t ht
  exact (mem_sortStr _ _).mp ht

/-! ### Invariant preservation by `abort_step` and `cancel` -/

theorem abort_finish_good (g : JobCfg) (fuel : Nat) (s : String) (st st' : JobState)
    (hg : Good g st) (hrun : (st.steps s).status = .running)
    (h : abort_finish g fuel s st = .ok st') :
    Good g st' ∧ st'.queue = st.queue ∧ st'.processes = st.processes ∧
    st'.completed = st.completed ∧ st'.failed = st.failed ∧
    (∀ t, t ≠ s → (st.steps t).status ≠ .waiting → st'.steps t = st.steps t) ∧
    (∀ t, t ≠ s → ((st.steps t).status = .waiting ∨ (st.steps t).status = .canceled) →
      ((st'.steps t).status = .waiting ∨ (st'.steps t).status = .canceled)) ∧
    (∀ t, (st'.steps t).status = .running → (st.steps t).status = .running) ∧
    (st'.steps s).status = .aborted := by
  rw [abort_finish] at h
  rcases hm : cancel_children g fuel s (set_status st s .aborted) with _ | st2
  · rw [hm] at h
    cases h
  · rw [hm] at h
    cases h
    rw [cancel_children] at hm
    rcases Option.map_eq_some'.mp hm with ⟨ds, hds, hst2⟩
    subst hst2
    set stA : JobState := set_status st s .aborted with hstA
    have hAs : stA.steps s = { st.steps s with status := .aborted } := by
      rw [hstA, set_status, setStep_steps_same]
    have hAt : ∀ t, t ≠ s → stA.steps t = st.steps t := by
      intro t ht
      rw [hstA, set_status, setStep_steps_other _ _ _ _ ht]
    have hsnotc : s ∉ st.completed := by
      intro hc
      have := hg.completed_status s hc
      rw [hrun] at this
      cases this
    have hsnotf : s ∉ st.failed := by
      intro hc
      have := hg.failed_status s hc
      rw [hrun] at this
      cases this
    have hsnq : s ∉ st.queue := by
      intro hc
      have := hg.queue_status s hc
      rw [hrun] at this
      cases this
    have hnq : ∀ t ∈ ds, (st.steps t).status ≠ .queued := fun t ht =>
      no_queued_descendant g st hg s hsnotc t (get_decendents_sound g s fuel ds hds t ht)
    have hsteps : ∀ t, (cancel_children_with ds stA).steps t =
        if t ∈ ds ∧ ((stA.steps t).status = .waiting ∨ (stA.steps t).status = .queued)
        then { stA.steps t with status := .canceled } else stA.steps t :=
      fun t => cancel_children_with_steps ds stA t
    have hss : (cancel_children_with ds stA).steps s = stA.steps s := by
      rw [hsteps s, if_neg]
      rintro ⟨_, hwq | hwq⟩ <;> rw [hAs] at hwq <;> cases hwq
    have hss' : ((cancel_children_with ds stA).steps s).status = .aborted := by
      rw [hss, hAs]
    have hframe' : ∀ t, t ≠ s → (st.steps t).status ≠ .waiting →
        (cancel_children_with ds stA).steps t = st.steps t := by
      intro t hts hw
      rw [hsteps t, hAt t hts, if_neg]
      rintro ⟨htds, hwq | hwq⟩
      · exact hw hwq
      · exact hnq t htds hwq
    have hstat : ∀ t, t ≠ s →
        ((cancel_children_with ds stA).steps t).status = (st.steps t).status ∨
        ((st.steps t).status = .waiting ∧
          ((cancel_children_with ds stA).steps t).status = .canceled) := by
      intro t hts
      rw [hsteps t, hAt t hts]
      by_cases hcond : t ∈ ds ∧
          ((st.steps t).status = .waiting ∨ (st.steps t).status = .queued)
      · rw [if_pos hcond]
        rcases hcond with ⟨htds, hwq | hwq⟩
        · exact Or.inr ⟨hwq, rfl⟩
        · exact absurd hwq (hnq t htds)
      · rw [if_neg hcond]
        exact Or.inl rfl
    have hque : (cancel_children_with ds stA).queue = st.queue := by
      rw [cancel_children_with, cancel_list_queue]; rfl
    have hproc : (cancel_children_with ds stA).processes = st.processes := by
      rw [cancel_children_with, cancel_list_processes]; rfl
    have hcomp : (cancel_children_with ds stA).completed = st.completed := by
      rw [cancel_children_with, cancel_list_completed]; rfl
    have hfail : (cancel_children_with ds stA).failed = st.failed := by
      rw [cancel_children_with, cancel_list_failed]; rfl
    have hgood : Good g (cancel_children_with ds stA) := by
      constructor
      · rw [hque]; exact hg.queue_nodup
      · intro t ht
        rw [hque] at ht
        have hts : t ≠ s := fun hts => hsnq (hts ▸ ht)
        have hq := hg.queue_status t ht
        rw [hframe' t hts (by rw [hq]; intro hcc; cases hcc)]
        exact hq
      · intro t ht
        by_cases hts : t = s
        · subst hts
          rw [hss'] at ht
          cases ht
        · rcases hstat t hts with heq | ⟨_, hcl⟩
          · rw [hque]
            exact hg.queued_mem t (heq ▸ ht)
          · rw [hcl] at ht
            cases ht
      · intro t ht
        rw [hque] at ht
        exact hg.queue_sub t ht
      · intro t ht
        rw [hcomp] at ht
        have hts : t ≠ s := fun hts => hsnotc (hts ▸ ht)
        have hst := hg.completed_status t ht
        rw [hframe' t hts (by rw [hst]; intro hcc; cases hcc)]
        exact hst
      · intro t ht
        by_cases hts : t = s
        · subst hts
          rw [hss'] at ht
          cases ht
        · rcases hstat t hts with heq | ⟨_, hcl⟩
          · rw [hcomp]
            exact hg.complete_mem t (heq ▸ ht)
          · rw [hcl] at ht
            cases ht
      · rw [hcomp]; exact hg.completed_nodup
      · intro t ht
        rw [hcomp] at ht
        exact hg.completed_sub t ht
      · intro t ht
        rw [hfail] at ht
        have hts : t ≠ s := fun hts => hsnotf (hts ▸ ht)
        have hst := hg.failed_status t ht
        rw [hframe' t hts (by rw [hst]; intro hcc; cases hcc)]
        exact hst
      · intro t ht
        by_cases hts : t = s
        · subst hts
          rw [hss'] at ht
          cases ht
        · rcases hstat t hts with heq | ⟨_, hcl⟩
          · rw [hfail]
            exact hg.failed_mem t (heq ▸ ht)
          · rw [hcl] at ht
            cases ht
      · intro t ht d hd
        rw [hcomp]
        by_cases hts : t = s
        · subst hts
          refine hg.deps_comp t ?_ d hd
          rw [hrun]; right; left; rfl
        · rcases hstat t hts with heq | ⟨_, hcl⟩
          · exact hg.deps_comp t (heq ▸ ht) d hd
          · rw [hcl] at ht
            rcases ht with h1 | h1 | h1 | h1 | h1 <;> cases h1
      · intro t ht
        rw [hproc] at ht
        by_cases hts : t = s
        · subst hts
          rw [hss']
          right; right; right; rfl
        · have hps := hg.procs_status t ht
          have hnw : (st.steps t).status ≠ .waiting := by
            rcases hps with h1 | h1 | h1 | h1 <;> rw [h1] <;> intro hcc <;> cases hcc
          rw [hframe' t hts hnw]
          exact hps
      · intro t ht
        rw [hproc] at ht
        exact hg.procs_sub t ht
    refine ⟨hgood, hque, hproc, hcomp, hfail, hframe', ?_, ?_, hss'⟩
    · intro t hts hwc
      rcases hstat t hts with heq | ⟨_, hcl⟩
      · rw [heq]
        exact hwc
      · exact Or.inr hcl
    · intro t ht
      by_cases hts : t = s
      · subst hts
        rw [hss'] at ht
        cases ht
      · rcases hstat t hts with heq | ⟨_, hcl⟩
        · exact heq ▸ ht
        · rw [hcl] at ht
          cases ht

theorem abort_step_ok_imp (g : JobCfg) (fuel : Nat) (s : String) (st st' : JobState)
    (h : abort_step g fuel s st = .ok st') : abort_finish g fuel s st = .ok st' := by
  rw [abort_step] at h
  split at h
  · rcases hm : List.lookup s st.processes with _ | e
    · rw [hm] at h
      cases h
    · rcases e with _ | pid
      · rw [hm] at h
        cases h
      · rw [hm] at h
        exact h
  · exact h

/-- Effect of the `cancel` loop over a list of step keys. -/
theorem cancel_aux_spec (g : JobCfg) (fuel : Nat) :
    ∀ (l : List String) (st st' : JobState), Good g st →
    cancel_aux g fuel l st = .ok st' →
    Good g st' ∧ st'.queue = st.queue ∧ st'.processes = st.processes ∧
    st'.completed = st.completed ∧ st'.failed = st.failed ∧
    (∀ t, (st.steps t).status = .queued → (st'.steps t).status = .queued) ∧
    (∀ t, ((st.steps t).status = .waiting ∨ (st.steps t).status = .canceled) →
      ((st'.steps t).status = .waiting ∨ (st'.steps t).status = .canceled)) ∧
    (∀ t, (st'.steps t).status = .running → (st.steps t).status = .running) := by
  intro l
  induction l with
  | nil =>
    intro st st' hg h
    cases h
    exact ⟨hg, rfl, rfl, rfl, rfl, fun t h => h, fun t h => h, fun t h => h⟩
  | cons s rest ih =>
    intro st st' hg h
    rw [cancel_aux] at h
    split at h
    · rename_i hrunb
      have hrun : (st.steps s).status = .running := by
        rcases hx : (st.steps s).status <;> rw [hx] at hrunb <;>
          simp [Status.runningFlag] at hrunb
      rcases ha : abort_step g fuel s st with e | st2
      · rw [ha] at h
        cases h
      · rw [ha] at h
        obtain ⟨hg2, hque, hproc, hcomp, hfail, hframe, hwc, hmono, habort⟩ :=
          abort_finish_good g fuel s st st2 hg hrun (abort_step_ok_imp g fuel s st st2 ha)
        obtain ⟨ka, kb, kc, kd, ke, kf, kg2, kh⟩ := ih st2 st' hg2 h
        refine ⟨ka, by rw [kb, hque], by rw [kc, hproc], by rw [kd, hcomp],
          by rw [ke, hfail], ?_, ?_, ?_⟩
        · intro t ht
          have hts : t ≠ s := by
            intro hts
            subst hts
            rw [hrun] at ht
            cases ht
          have h2 : (st2.steps t).status = .queued := by
            rw [hframe t hts (by rw [ht]; intro hcc; cases hcc)]
            exact ht
          exact kf t h2
        · intro t ht
          have hts : t ≠ s := by
            intro hts
            subst hts
            rcases ht with h1 | h1 <;> rw [hrun] at h1 <;> cases h1
          exact kg2 t (hwc t hts ht)
        · intro t ht
          exact hmono t (kh t ht)
    · exact ih st st' hg h

/-- Effect of `cancel` (jobs.py:292-300). -/
theorem cancel_spec (g : JobCfg) (fuel : Nat) (st st' : JobState) (hg : Good g st)
    (h : cancel g fuel st = .ok st') :
    Good g st' ∧ st'.queue = st.queue ∧ st'.processes = st.processes ∧
    st'.completed = st.completed ∧ st'.failed = st.failed ∧
    (∀ t, (st.steps t).status = .queued → (st'.steps t).status = .queued) ∧
    (∀ t, ((st.steps t).status = .waiting ∨ (st.steps t).status = .canceled) →
      ((st'.steps t).status = .waiting ∨ (st'.steps t).status = .canceled)) ∧
    (∀ t, (st'.steps t).status = .running → (st.steps t).status = .running) :=
  cancel_aux_spec g fuel g.keys st st' hg h

/-! ### Invariant preservation by `monitor_processes` -/

theorem monitor_aux_spec (g : JobCfg) (fuel : Nat) (pollO : String → Option Int)
    (now : Int) :
    ∀ (ps : List (String × ProcEntry)) (st st' : JobState), Good g st →
    (∀ p ∈ ps, p.1 ∈ st.processes.map Prod.fst) →
    monitor_aux g fuel pollO now ps st = .ok st' →
    Good g st' ∧ st'.queue = st.queue ∧ st'.processes = st.processes ∧
    (∀ t, t ∈ st.completed → t ∈ st'.completed) ∧
    (∀ t, (st.steps t).status = .queued → (st'.steps t).status = .queued) ∧
    (∀ t, ((st.steps t).status = .waiting ∨ (st.steps t).status = .canceled) →
      ((st'.steps t).status = .waiting ∨ (st'.steps t).status = .canceled)) ∧
    (∀ t, (st'.steps t).status = .running → (st.steps t).status = .running) := by
  intro ps
  induction ps with
  | nil =>
    intro st st' hg _ h
    cases h
    exact ⟨hg, rfl, rfl, fun t h => h, fun t h => h, fun t h => h, fun t h => h⟩
  | cons p rest ih =>
    obtain ⟨s, e⟩ := p
    intro st st' hg hps h
    have hsp : s ∈ st.processes.map Prod.fst := hps (s, e) (by simp)
    have hrest0 : ∀ q ∈ rest, q.1 ∈ st.processes.map Prod.fst :=
      fun q hq => hps q (List.mem_cons_of_mem _ hq)
    have e1 : monitor_aux g fuel pollO now ((s, e) :: rest) st =
        if s ∈ st.completed ∨ s ∈ st.failed then
          monitor_aux g fuel pollO now rest st
        else if !g.simulate && !(st.steps s).simulate then
          match pollO s with
          | none => monitor_aux g fuel pollO now rest st
          | some code =>
            match complete_step g fuel s code now st with
            | none => .error .fuelOut
            | some st2 => monitor_aux g fuel pollO now rest st2
        else
          match complete_step g fuel s 0 now st with
          | none => .error .fuelOut
          | some st2 => monitor_aux g fuel pollO now rest st2 := rfl
    rw [e1] at h
    clear e1
    by_cases hmem : s ∈ st.completed ∨ s ∈ st.failed
    · rw [if_pos hmem] at h
      exact ih st st' hg hrest0 h
    · rw [if_neg hmem] at h
      push_neg at hmem
      obtain ⟨hnc, hnf⟩ := hmem
      have hsk : s ∈ g.keys := hg.procs_sub s hsp
      have hstat : (st.steps s).status = .running ∨ (st.steps s).status = .aborted := by
        rcases hg.procs_status s hsp with h1 | h1 | h1 | h1
        · exact Or.inl h1
        · exact absurd (hg.complete_mem s h1) hnc
        · exact absurd (hg.failed_mem s h1) hnf
        · exact Or.inr h1
      have main : ∀ (code : Int) (st2 : JobState),
          complete_step g fuel s code now st = some st2 →
          monitor_aux g fuel pollO now rest st2 = .ok st' →
          Good g st' ∧ st'.queue = st.queue ∧ st'.processes = st.processes ∧
          (∀ t, t ∈ st.completed → t ∈ st'.completed) ∧
          (∀ t, (st.steps t).status = .queued → (st'.steps t).status = .queued) ∧
          (∀ t, ((st.steps t).status = .waiting ∨ (st.steps t).status = .canceled) →
            ((st'.steps t).status = .waiting ∨ (st'.steps t).status = .canceled)) ∧
          (∀ t, (st'.steps t).status = .running → (st.steps t).status = .running) := by
        intro code st2 hcs hrec
        obtain ⟨hg2, hque, hproc, hcm, hframe, hwc, hmono, _⟩ :=
          complete_step_good g fuel s code now st st2 hg hsk hstat hcs
        have hrest2 : ∀ q ∈ rest, q.1 ∈ st2.processes.map Prod.fst := by
          intro q hq
          rw [hproc]
          exact hrest0 q hq
        obtain ⟨ka, kb, kc, kd, ke, kf, kg2⟩ := ih st2 st' hg2 hrest2 hrec
        refine ⟨ka, by rw [kb, hque], by rw [kc, hproc], ?_, ?_, ?_, ?_⟩
        · intro t ht
          exact kd t (hcm t ht)
        · intro t ht
          have hts : t ≠ s := by
            intro hts
            subst hts
            rcases hstat with h1 | h1 <;> rw [h1] at ht <;> cases ht
          have h2 : (st2.steps t).status = .queued := by
            rw [hframe t hts (by rw [ht]; intro hcc; cases hcc)]
            exact ht
          exact ke t h2
        · intro t ht
          have hts : t ≠ s := by
            intro hts
            subst hts
            rcases ht with h1 | h1 <;> rcases hstat with h2 | h2 <;>
              rw [h2] at h1 <;> cases h1
          exact kf t (hwc t hts ht)
        · intro t ht
          exact hmono t (kg2 t ht)
      by_cases hsim : !g.simulate && !(st.steps s).simulate
      · rw [if_pos hsim] at h
        rcases hpoll : pollO s with _ | code
        · rw [hpoll] at h
          exact ih st st' hg hrest0 h
        · rw [hpoll] at h
          dsimp only at h
          rcases hcs : complete_step g fuel s code now st with _ | st2
          · rw [hcs] at h
            cases h
          · rw [hcs] at h
            exact main code st2 hcs h
      · rw [if_neg hsim] at h
        rcases hcs : complete_step g fuel s 0 now st with _ | st2
        · rw [hcs] at h
          cases h
        · rw [hcs] at h
          exact main 0 st2 hcs h

/-- Effect of `monitor_processes`. -/
theorem monitor_processes_spec (g : JobCfg) (fuel : Nat) (pollO : String → Option Int)
    (now : Int) (st st' : JobState) (hg : Good g st)
    (h : monitor_processes g fuel pollO now st = .ok st') :
    Good g st' ∧ st'.queue = st.queue ∧ st'.processes = st.processes ∧
    (∀ t, t ∈ st.completed → t ∈ st'.completed) ∧
    (∀ t, (st.steps t).status = .queued → (st'.steps t).status = .queued) ∧
    (∀ t, ((st.steps t).status = .waiting ∨ (st.steps t).status = .canceled) →
      ((st'.steps t).status = .waiting ∨ (st'.steps t).status = .canceled)) ∧
    (∀ t, (st'.steps t).status = .running → (st.steps t).status = .running) :=
  monitor_aux_spec g fuel pollO now st.processes st st' hg
    (fun q hq => List.mem_map.mpr ⟨q, hq, rfl⟩) h

/-! ### Invariant preservation by `process_queue` -/

theorem process_queue_aux_spec (g : JobCfg) (fuel : Nat) (mailO : String → MailOutcome)
    (pidO : String → Nat) (now : Int) (hk : g.keys.Nodup) :
    ∀ (q : List String) (st st' : JobState), Good g st → st.queue = q →
    process_queue_aux g fuel mailO pidO now q st = .ok st' →
    Good g st' ∧
    (runningCount g st ≤ g.concurrency → runningCount g st' ≤ g.concurrency) ∧
    (∀ t, t ∈ st.completed → t ∈ st'.completed) ∧
    (∀ t, (st.steps t).status ≠ .waiting → (st.steps t).status ≠ .queued →
      st'.steps t = st.steps t ∧
      List.lookup t st'.processes = List.lookup t st.processes) ∧
    (∀ t, (st.steps t).status = .queued →
      (st'.steps t).status = .queued ∨ (st'.steps t).status = .running ∨
      (st'.steps t).status = .complete ∨ (st'.steps t).status = .failed) ∧
    (∀ t, ((st.steps t).status = .waiting ∨ (st.steps t).status = .canceled) →
      ((st'.steps t).status = .waiting ∨ (st'.steps t).status = .canceled)) := by
  intro q
  induction q with
  | nil =>
    intro st st' hg hqe h
    cases h
    exact ⟨hg, fun hc => hc, fun t ht => ht, fun t _ _ => ⟨rfl, rfl⟩,
      fun t ht => Or.inl ht, fun t ht => ht⟩
  | cons s rest ih =>
    intro st st' hg hqe h
    rw [process_queue_aux] at h
    by_cases hcnt : runningCount g st < g.concurrency
    · rw [if_pos hcnt] at h
      dsimp only at h
      have hsmem : s ∈ st.queue := by rw [hqe]; simp
      have hsq : (st.steps s).status = .queued := hg.queue_status s hsmem
      have hsk : s ∈ g.keys := hg.queue_sub s hsmem
      have hnodup := hg.queue_nodup
      rw [hqe] at hnodup
      have hnrest : s ∉ rest := (List.nodup_cons.mp hnodup).1
      have hg1 : Good g (dispatch_mark s now { st with queue := rest }) :=
        dispatch_mark_good g st s rest now hg hqe
      set st1 : JobState := dispatch_mark s now { st with queue := rest } with hst1
      have h1s : st1.steps s = { st.steps s with status := .running, startTime := some now } := by
        rw [hst1, dispatch_mark, setStep_steps_same]
      have h1t : ∀ t, t ≠ s → st1.steps t = st.steps t := by
        intro t ht
        rw [hst1, dispatch_mark, setStep_steps_other _ _ _ _ ht]
      have h1q : st1.queue = rest := rfl
      have h1c : st1.completed = st.completed := rfl
      have h1f : st1.failed = st.failed := rfl
      have h1p : st1.processes = st.processes := rfl
      have h1ss : (st1.steps s).status = .running := by rw [h1s]
      have hcount1 : runningCount g st1 = runningCount g st + 1 := by
        refine runningCount_set_running g st st1 s hk hsk ?_ ?_ h1ss
        · rw [hsq]; intro hcc; cases hcc
        · intro t ht
          rw [h1t t ht]
      -- composition step shared by all branches that recurse on a state st2
      have compose : ∀ st2 : JobState, Good g st2 → st2.queue = rest →
          runningCount g st2 ≤ runningCount g st + 1 →
          (∀ t, t ∈ st.completed → t ∈ st2.completed) →
          (∀ t, (st.steps t).status ≠ .waiting → (st.steps t).status ≠ .queued →
            st2.steps t = st.steps t ∧
            List.lookup t st2.processes = List.lookup t st.processes) →
          ((st2.steps s).status = .running ∨ (st2.steps s).status = .complete ∨
            (st2.steps s).status = .failed) ∧
          (∀ t, t ≠ s → (st.steps t).status = .queued → (st2.steps t).status = .queued) →
          (∀ t, ((st.steps t).status = .waiting ∨ (st.steps t).status = .canceled) →
            ((st2.steps t).status = .waiting ∨ (st2.steps t).status = .canceled)) →
          process_queue_aux g fuel mailO pidO now rest st2 = .ok st' →
          Good g st' ∧
          (runningCount g st ≤ g.concurrency → runningCount g st' ≤ g.concurrency) ∧
          (∀ t, t ∈ st.completed → t ∈ st'.completed) ∧
          (∀ t, (st.steps t).status ≠ .waiting → (st.steps t).status ≠ .queued →
            st'.steps t = st.steps t ∧
            List.lookup t st'.processes = List.lookup t st.processes) ∧
          (∀ t, (st.steps t).status = .queued →
            (st'.steps t).status = .queued ∨ (st'.steps t).status = .running ∨
            (st'.steps t).status = .complete ∨ (st'.steps t).status = .failed) ∧
          (∀ t, ((st.steps t).status = .waiting ∨ (st.steps t).status = .canceled) →
            ((st'.steps t).status = .waiting ∨ (st'.steps t).status = .canceled)) := by
        intro st2 kg kq kcnt kcm kframe kstat kwc krec
        obtain ⟨ia, ib, ic, id2, ie, if2⟩ := ih st2 st' kg kq krec
        refine ⟨ia, ?_, ?_, ?_, ?_, ?_⟩
        · intro hle
          exact ib (le_trans kcnt hcnt)
        · intro t ht
          exact ic t (kcm t ht)
        · intro t hw hq2
          obtain ⟨k1, k2⟩ := kframe t hw hq2
          have hw2 : (st2.steps t).status ≠ .waiting := by rw [k1]; exact hw
          have hq2' : (st2.steps t).status ≠ .queued := by rw [k1]; exact hq2
          obtain ⟨m1, m2⟩ := id2 t hw2 hq2'
          exact ⟨by rw [m1, k1], by rw [m2, k2]⟩
        · intro t ht
          by_cases hts : t = s
          · subst hts
            rcases kstat.1 with k1 | k1 | k1
            all_goals {
              have hw2 : (st2.steps t).status ≠ .waiting := by rw [k1]; intro hcc; cases hcc
              have hq2' : (st2.steps t).status ≠ .queued := by rw [k1]; intro hcc; cases hcc
              obtain ⟨m1, _⟩ := id2 t hw2 hq2'
              rw [m1, k1]
              simp
            }
          · have k2 := kstat.2 t hts ht
            exact ie t k2
        · intro t ht
          exact if2 t (kwc t ht)
      by_cases hos : g.stype s = "os"
      · rw [if_pos hos] at h
        set st2 : JobState :=
          (if g.simulate || (st1.steps s).simulate then
            { st1 with processes := update_proc st1.processes s .empty }
          else
            { st1.setStep s { st1.steps s with pid := some (pidO s) } with
                processes := update_proc st1.processes s (.spawned (pidO s)) }) with hst2
        have h2s : (st2.steps s).status = .running := by
          rw [hst2]
          split
          · exact h1ss
          · show ((st1.setStep s _).steps s).status = .running
            rw [setStep_steps_same]
            exact h1ss
        have h2t : ∀ t, t ≠ s → st2.steps t = st1.steps t := by
          intro t ht
          rw [hst2]
          split
          · rfl
          · show ((st1.setStep s _).steps t) = _
            rw [setStep_steps_other _ _ _ _ ht]
        have h2q : st2.queue = rest := by
          rw [hst2]
          split <;> rfl
        have h2c : st2.completed = st.completed := by
          rw [hst2]
          split <;> rfl
        have h2f : st2.failed = st.failed := by
          rw [hst2]
          split <;> rfl
        have h2p : ∃ e2 : ProcEntry, st2.processes = update_proc st1.processes s e2 := by
          rw [hst2]
          split
          · exact ⟨.empty, rfl⟩
          · exact ⟨.spawned (pidO s), rfl⟩
        obtain ⟨e2, h2p⟩ := h2p
        have kg2 : Good g st2 :=
          good_update_os g st1 st2 s e2 hg1 hsk h1ss h2s h2t h2q h2c h2f h2p
        have kcnt : runningCount g st2 ≤ runningCount g st + 1 := by
          rw [← hcount1]
          apply runningCount_le_of_pointwise
          intro t ht
          by_cases hts : t = s
          · subst hts
            exact h1ss
          · rw [← h2t t hts]
            exact ht
        refine compose st2 kg2 h2q kcnt ?_ ?_ ⟨Or.inl h2s, ?_⟩ ?_ h
        · intro t ht
          rw [h2c]
          exact ht
        · intro t hw hq2
          have hts : t ≠ s := by
            intro hts
            subst hts
            exact hq2 hsq
          refine ⟨by rw [h2t t hts, h1t t hts], ?_⟩
          rw [h2p, update_proc_lookup_other _ _ _ _ hts, h1p]
        · intro t hts hq2
          rw [h2t t hts, h1t t hts]
          exact hq2
        · intro t ht
          have hts : t ≠ s := by
            intro hts
            subst hts
            rcases ht with h1 | h1 <;> rw [hsq] at h1 <;> cases h1
          rw [h2t t hts, h1t t hts]
          exact ht
      · rw [if_neg hos] at h
        by_cases hint : g.stype s = "internal"
        · rw [if_pos hint] at h
          -- shared handling of the two completing internal tasks
          have internal_case : ∀ (code : Int) (st2 : JobState),
              complete_step g fuel s code now st1 = some st2 →
              process_queue_aux g fuel mailO pidO now rest st2 = .ok st' →
              Good g st' ∧
              (runningCount g st ≤ g.concurrency → runningCount g st' ≤ g.concurrency) ∧
              (∀ t, t ∈ st.completed → t ∈ st'.completed) ∧
              (∀ t, (st.steps t).status ≠ .waiting → (st.steps t).status ≠ .queued →
                st'.steps t = st.steps t ∧
                List.lookup t st'.processes = List.lookup t st.processes) ∧
              (∀ t, (st.steps t).status = .queued →
                (st'.steps t).status = .queued ∨ (st'.steps t).status = .running ∨
                (st'.steps t).status = .complete ∨ (st'.steps t).status = .failed) ∧
              (∀ t, ((st.steps t).status = .waiting ∨ (st.steps t).status = .canceled) →
                ((st'.steps t).status = .waiting ∨ (st'.steps t).status = .canceled)) := by
            intro code st2 hcs hrec
            obtain ⟨kg2, kque, kproc, kcm, kframe, kwc, kmono, kss⟩ :=
              complete_step_good g fuel s code now st1 st2 hg1 hsk (Or.inl h1ss) hcs
            have kq : st2.queue = rest := by rw [kque, h1q]
            have kcnt : runningCount g st2 ≤ runningCount g st + 1 := by
              rw [← hcount1]
              exact runningCount_le_of_pointwise g st1 st2 kmono
            refine compose st2 kg2 kq kcnt ?_ ?_ ⟨?_, ?_⟩ ?_ hrec
            · intro t ht
              rw [← h1c] at ht
              exact kcm t ht
            · intro t hw hq2
              have hts : t ≠ s := by
                intro hts
                subst hts
                exact hq2 hsq
              have hw1 : (st1.steps t).status ≠ .waiting := by
                rw [h1t t hts]; exact hw
              refine ⟨by rw [kframe t hts hw1, h1t t hts], ?_⟩
              rw [kproc, h1p]
            · rcases kss with k1 | k1
              · right; left; exact k1
              · right; right; exact k1
            · intro t hts hq2
              have hw1 : (st1.steps t).status ≠ .waiting := by
                rw [h1t t hts, hq2]
                intro hcc; cases hcc
              rw [kframe t hts hw1, h1t t hts]
              exact hq2
            · intro t ht
              have hts : t ≠ s := by
                intro hts
                subst hts
                rcases ht with h1 | h1 <;> rw [hsq] at h1 <;> cases h1
              have ht1 : ((st1.steps t).status = .waiting ∨ (st1.steps t).status = .canceled) := by
                rw [h1t t hts]
                exact ht
              exact kwc t hts ht1
          by_cases hmail : g.task s = "send_mail"
          · rw [if_pos hmail] at h
            rcases hout : (if g.simulate || (st1.steps s).simulate then
                MailOutcome.delivered false else mailO s) with refused | _
            · rw [hout] at h
              dsimp only at h
              rcases hcs : complete_step g fuel s (if refused then 1 else 0) now st1 with _ | st2
              · rw [hcs] at h
                cases h
              · rw [hcs] at h
                exact internal_case _ st2 hcs h
            · rw [hout] at h
              dsimp only at h
              cases h
          · rw [if_neg hmail] at h
            by_cases hsleep : g.task s = "sleep"
            · rw [if_pos hsleep] at h
              rcases hcs : complete_step g fuel s 0 now st1 with _ | st2
              · rw [hcs] at h
                cases h
              · rw [hcs] at h
                exact internal_case 0 st2 hcs h
            · rw [if_neg hsleep] at h
              -- unknown internal task: the step is simply left running
              refine compose st1 hg1 h1q (le_of_eq hcount1) ?_ ?_ ⟨Or.inl h1ss, ?_⟩ ?_ h
              · intro t ht
                rw [h1c]
                exact ht
              · intro t hw hq2
                have hts : t ≠ s := by
                  intro hts
                  subst hts
                  exact hq2 hsq
                exact ⟨h1t t hts, by rw [h1p]⟩
              · intro t hts hq2
                rw [h1t t hts]
                exact hq2
              · intro t ht
                have hts : t ≠ s := by
                  intro hts
                  subst hts
                  rcases ht with h1 | h1 <;> rw [hsq] at h1 <;> cases h1
                rw [h1t t hts]
                exact ht
        · rw [if_neg hint] at h
          cases h
    · rw [if_neg hcnt] at h
      cases h
      exact ⟨hg, fun hc => hc, fun t ht => ht, fun t _ _ => ⟨rfl, rfl⟩,
        fun t ht => Or.inl ht, fun t ht => ht⟩

/-- Effect of `process_queue`. -/
theorem process_queue_spec (g : JobCfg) (fuel : Nat) (mailO : String → MailOutcome)
    (pidO : String → Nat) (now : Int) (hk : g.keys.Nodup) (st st' : JobState)
    (hg : Good g st) (h : process_queue g fuel mailO pidO now st = .ok st') :
    Good g st' ∧
    (runningCount g st ≤ g.concurrency → runningCount g st' ≤ g.concurrency) ∧
    (∀ t, t ∈ st.completed → t ∈ st'.completed) ∧
    (∀ t, (st.steps t).status ≠ .waiting → (st.steps t).status ≠ .queued →
      st'.steps t = st.steps t ∧
      List.lookup t st'.processes = List.lookup t st.processes) ∧
    (∀ t, (st.steps t).status = .queued →
      (st'.steps t).status = .queued ∨ (st'.steps t).status = .running ∨
      (st'.steps t).status = .complete ∨ (st'.steps t).status = .failed) ∧
    (∀ t, ((st.steps t).status = .waiting ∨ (st.steps t).status = .canceled) →
      ((st'.steps t).status = .waiting ∨ (st'.steps t).status = .canceled)) :=
  process_queue_aux_spec g fuel mailO pidO now hk st.queue st st' hg rfl h

/-! ### Invariant preservation by every operation, and reachability -/

theorem applyOp_spec (g : JobCfg) (hk : g.keys.Nodup) (o : Op) (st st' : JobState)
    (hg : Good g st) (h : applyOp g o st = .ok st') :
    Good g st' ∧
    (runningCount g st ≤ g.concurrency → runningCount g st' ≤ g.concurrency) ∧
    (∀ t, t ∈ st.completed → t ∈ st'.completed) ∧
    (∀ t, (st.steps t).status = .queued →
      (st'.steps t).status = .queued ∨ (st'.steps t).status = .running ∨
      (st'.steps t).status = .complete ∨ (st'.steps t).status = .failed) ∧
    (∀ t, dependencies_met g st t = false →
      ((st.steps t).status = .waiting ∨ (st.steps t).status = .canceled) →
      ((st'.steps t).status = .waiting ∨ (st'.steps t).status = .canceled)) := by
  cases o with
  | queueRunnablesOp now =>
    cases h
    obtain ⟨ka, kc, _, _, ke, kf⟩ := queue_runnables_spec g now st hg
    refine ⟨ka, ?_, ?_, ?_, ?_⟩
    · intro hle
      refine le_trans (runningCount_le_of_pointwise g st _ ?_) hle
      intro t ht
      rcases ke t with h1 | ⟨h1, h2⟩
      · rw [← h1]
        exact ht
      · rw [h2] at ht
        cases ht
    · intro t ht
      rw [kc]
      exact ht
    · intro t ht
      rcases ke t with h1 | ⟨h1, _⟩
      · left
        rw [h1]
        exact ht
      · rw [h1] at ht
        cases ht
    · intro t hdm hwc
      rw [kf t hdm]
      exact hwc
  | processQueueOp fuel mailO pidO now =>
    obtain ⟨ka, kb, kc, _, ke, kf⟩ := process_queue_spec g fuel mailO pidO now hk st st' hg h
    exact ⟨ka, kb, kc, ke, fun t _ hwc => kf t hwc⟩
  | monitorOp fuel pollO now =>
    obtain ⟨ka, _, _, kd, ke, kf, kg2⟩ := monitor_processes_spec g fuel pollO now st st' hg h
    refine ⟨ka, ?_, kd, ?_, ?_⟩
    · intro hle
      exact le_trans (runningCount_le_of_pointwise g st st' kg2) hle
    · intro t ht
      exact Or.inl (ke t ht)
    · intro t _ hwc
      exact kf t hwc
  | cancelOp fuel =>
    obtain ⟨ka, _, _, _, _, ke, kf, kg2⟩ := cancel_spec g fuel st st' hg h
    refine ⟨ka, ?_, ?_, ?_, ?_⟩
    · intro hle
      exact le_trans (runningCount_le_of_pointwise g st st' kg2) hle
    · intro t ht
      rw [(cancel_spec g fuel st st' hg h).2.2.2.1]
      exact ht
    · intro t ht
      exact Or.inl (ke t ht)
    · intro t _ hwc
      exact kf t hwc

/-- The freshly constructed state satisfies the invariant. -/
theorem good_init (raw : List (String × RawStep)) (simulate : Bool)
    (disabled : List String) (concurrency : Nat) :
    Good (jobCfg raw simulate concurrency) (jobInitState raw simulate disabled) := by
  have hstat : ∀ t, ((jobInitState raw simulate disabled).steps t).status = .waiting := by
    intro t
    rfl
  constructor
  · exact List.nodup_nil
  · intro t ht
    cases ht
  · intro t ht
    rw [hstat t] at ht
    cases ht
  · intro t ht
    cases ht
  · intro t ht
    cases ht
  · intro t ht
    rw [hstat t] at ht
    cases ht
  · exact List.nodup_nil
  · intro t ht
    cases ht
  · intro t ht
    cases ht
  · intro t ht
    rw [hstat t] at ht
    cases ht
  · intro t ht
    rw [hstat t] at ht
    rcases ht with h1 | h1 | h1 | h1 | h1 <;> cases h1
  · intro t ht
    cases ht
  · intro t ht
    cases ht

/-- Every reachable state satisfies the invariant and respects the
concurrency bound carried from the initial state. -/
theorem reachable_spec (g : JobCfg) (hk : g.keys.Nodup) (init st : JobState)
    (h0 : Good g init) (hc0 : runningCount g init ≤ g.concurrency)
    (hr : Reachable g init st) :
    Good g st ∧ runningCount g st ≤ g.concurrency := by
  induction hr with
  | refl => exact ⟨h0, hc0⟩
  | step o hr hok ih =>
    obtain ⟨ka, kb, _, _, _⟩ := applyOp_spec g hk o _ _ ih.1 hok
    exact ⟨ka, kb ih.2⟩

theorem dependencies_met_false_of_unknown (g : JobCfg) (st : JobState) (s d : String)
    (hg : Good g st) (hd : d ∈ depsL g s) (hdk : d ∉ g.keys) :
    dependencies_met g st s = false := by
  by_contra hne
  have htrue : dependencies_met g st s = true := by
    cases hx : dependencies_met g st s
    · exact absurd hx hne
    · rfl
  have := dependencies_met_sub g st s htrue d hd
  exact hdk (hg.completed_sub d this)

/-- Every reachable state satisfies the invariant. -/
theorem reachable_good (g : JobCfg) (hk : g.keys.Nodup) (init st : JobState)
    (h0 : Good g init) (hr : Reachable g init st) : Good g st := by
  induction hr with
  | refl => exact h0
  | step o hr hok ih => exact (applyOp_spec g hk o _ _ ih hok).1

/-- A step with an unknown dependency id can never be queued: in every
reachable state it is still waiting, or canceled by a cascade, and its
dependencies are never met. -/
theorem reachable_unknown_dep (g : JobCfg) (hk : g.keys.Nodup) (init st : JobState)
    (h0 : Good g init) (s d : String) (hd : d ∈ depsL g s) (hdk : d ∉ g.keys)
    (hw0 : (init.steps s).status = .waiting)
    (hr : Reachable g init st) :
    ((st.steps s).status = .waiting ∨ (st.steps s).status = .canceled) ∧
      dependencies_met g st s = false := by
  induction hr with
  | refl =>
    exact ⟨Or.inl hw0, dependencies_met_false_of_unknown g init s d h0 hd hdk⟩
  | step o hr hok ih =>
    rename_i stprev stnext
    have hgprev : Good g stprev := reachable_good g hk init stprev h0 hr
    have hgnext : Good g stnext := (applyOp_spec g hk o _ _ hgprev hok).1
    refine ⟨?_, dependencies_met_false_of_unknown g stnext s d hgnext hd hdk⟩
    exact (applyOp_spec g hk o _ _ hgprev hok).2.2.2.2 s ih.2 ih.1

/-! ### Claim C2: termination of `get_decendents` -/

theorem cycle_children_A : get_children gCycle "A" = ["B"] := by decide

theorem cycle_children_B : get_children gCycle "B" = ["A"] := by decide

/-- On the two-step cycle the crawl state oscillates with period two and the
queue never empties. -/
theorem cycle_osc : ∀ n, get_decendents_aux gCycle n ["B", "A"] ["A"] = none ∧
    get_decendents_aux gCycle n ["A", "B"] ["B"] = none := by
  intro n
  induction n with
  | zero => exact ⟨rfl, rfl⟩
  | succ n ih =>
    refine ⟨?_, ?_⟩
    · rw [get_decendents_aux_cons]
      have h1 : ((["B", "A"] ++ get_children gCycle "A").dedup) = ["A", "B"] := by decide
      have h2 : ((([] : List String) ++ get_children gCycle "A").dedup) = ["B"] := by decide
      rw [h1, h2]
      exact ih.2
    · rw [get_decendents_aux_cons]
      have h1 : ((["A", "B"] ++ get_children gCycle "B").dedup) = ["B", "A"] := by decide
      have h2 : ((([] : List String) ++ get_children gCycle "B").dedup) = ["A"] := by decide
      rw [h1, h2]
      exact ih.1

/-- On the two-step cycle no amount of fuel makes `get_decendents` finish. -/
theorem cycle_diverges : ∀ fuel, get_decendents gCycle fuel "A" = none := by
  intro fuel
  match fuel with
  | 0 => rfl
  | 1 => rfl
  | n + 2 =>
    show get_decendents_aux gCycle (n + 2) [] ["A"] = none
    rw [get_decendents_aux_cons]
    have h2 : ((([] : List String) ++ get_children gCycle "A").dedup) = ["B"] := by decide
    rw [h2, get_decendents_aux_cons]
    have h3 : ((["B"] ++ get_children gCycle "B").dedup) = ["B", "A"] := by decide
    have h4 : ((([] : List String) ++ get_children gCycle "B").dedup) = ["A"] := by decide
    rw [h3, h4]
    exact (cycle_osc n).1

/-- C2 counterexample: on the configuration `gCycle`, whose dependency graph
is a cycle, `get_decendents "A"` does not terminate: the loop (embedded with
fuel) returns `none` for every fuel, because the queue dedup only
de-duplicates the pending queue and is not a visited set — contrary to the
claim that a BFS visited-set guarantees termination on every graph. -/
theorem C2_counterexample_cycle : ¬ TerminatesOn gCycle "A" := by
  rintro ⟨fuel, ds, h⟩
  rw [cycle_diverges fuel] at h
  cases h

/-- C2 (amended): `get_decendents step` terminates for every step whenever
the dependent graph is acyclic (it admits a ranking function that decreases
along every child edge): some finite fuel makes the crawl finish. -/
theorem C2_get_decendents_terminates (g : JobCfg) (hacy : Acyclic g) (s : String) :
    TerminatesOn g s := by
  rcases hacy with ⟨rk, hrk⟩
  rcases get_decendents_aux_terminates g rk hrk (qWeight g.keys.length rk [s]) [] [s]
    (le_refl _) with ⟨r, hr⟩
  exact ⟨_, r, hr⟩

theorem gLine_acyclic : Acyclic gLine := by
  refine ⟨fun x => if x = "A" then 1 else 0, ?_⟩
  intro u v hv
  rw [childEdge, mem_get_children] at hv
  obtain ⟨hvk, hu⟩ := hv
  have hkeys : gLine.keys = ["A", "B"] := rfl
  rw [hkeys] at hvk
  rcases List.mem_cons.mp hvk with h1 | h1
  · subst h1
    have hdep : depsL gLine "A" = [] := rfl
    rw [hdep] at hu
    cases hu
  · have h2 : v = "B" := by simpa using h1
    subst h2
    have hdep : depsL gLine "B" = ["A"] := rfl
    rw [hdep] at hu
    have h3 : u = "A" := by simpa using hu
    subst h3
    decide

theorem C2_get_decendents_terminates_witness : TerminatesOn gLine "A" :=
  C2_get_decendents_terminates gLine gLine_acyclic "A"

/-! ### Claim C3: `dependencies_met` -/

/-- C3: `dependencies_met step` returns true iff the step's dependency entry
is unset (`None`) — which subsumes the empty list, for which the universal
condition is vacuous — or every dependency id is a member of the job's
completed list; in every other case it returns false.  (A dependency that
ended failed, canceled or aborted is never appended to `completed`, so it
never satisfies the test.) -/
theorem C3_dependencies_met (g : JobCfg) (st : JobState) (s : String) :
    dependencies_met g st s = true ↔
      (g.deps s = none ∨ ∀ d ∈ depsL g s, d ∈ st.completed) :=
  dependencies_met_iff g st s

theorem C3_dependencies_met_witness : dependencies_met gBad stBad2 "beta" = false := by
  cases hx : dependencies_met gBad stBad2 "beta"
  · rfl
  · exfalso
    rcases (C3_dependencies_met gBad stBad2 "beta").mp hx with h1 | h1
    · have h2 : gBad.deps "beta" = some ["ghost"] := rfl
      rw [h2] at h1
      cases h1
    · have h2 := h1 "ghost" (by decide)
      have h3 : stBad2.completed = ["alpha"] := rfl
      rw [h3] at h2
      simp at h2

/-! ### Claim C4: `complete_step` -/

/-- C4: for a step with a recorded start time, `complete_step step r` records
the result code, the stop time and duration = stop − start; it marks the step
complete and appends it to `completed` exactly when `r` is in the step's
`resultcode_allowed` list, and otherwise marks it failed, appends it to
`failed`, and cancels every waiting or queued member of the step's computed
descendant set. -/
theorem C4_complete_step_effect (g : JobCfg) (fuel : Nat) (s : String) (r now t0 : Int)
    (st st' : JobState)
    (hstart : (st.steps s).startTime = some t0)
    (h : complete_step g fuel s r now st = some st') :
    (st'.steps s).resultcode = some r ∧ (st'.steps s).stopTime = some now ∧
    (st'.steps s).duration = now - t0 ∧
    (r ∈ g.rcAllowed s →
      (st'.steps s).status = .complete ∧ st'.completed = st.completed ++ [s] ∧
      st'.failed = st.failed) ∧
    (r ∉ g.rcAllowed s →
      (st'.steps s).status = .failed ∧ st'.failed = st.failed ++ [s] ∧
      st'.completed = st.completed ∧
      ∃ ds, get_decendents g fuel s = some ds ∧
        ∀ t, t ∈ ds → t ≠ s →
          ((st.steps t).status = .waiting ∨ (st.steps t).status = .queued) →
          (st'.steps t).status = .canceled) := by
  obtain ⟨hqe, hpe, hif⟩ := complete_step_cases g fuel s r now st st' h
  by_cases hr : r ∈ g.rcAllowed s
  · rw [if_pos hr] at hif
    obtain ⟨hce, hfe, hss, hframe⟩ := hif
    refine ⟨by rw [hss], by rw [hss], by rw [hss, hstart]; rfl,
      fun _ => ⟨by rw [hss], hce, hfe⟩, fun hcon => absurd hr hcon⟩
  · rw [if_neg hr] at hif
    obtain ⟨ds, hds, hce, hfe, hss, hframe⟩ := hif
    refine ⟨by rw [hss], by rw [hss], by rw [hss, hstart]; rfl,
      fun hcon => absurd hcon hr, fun _ => ⟨by rw [hss], hfe, hce, ds, hds, ?_⟩⟩
    intro t htds hts hwq
    rw [hframe t hts, if_pos ⟨htds, hwq⟩]

theorem C4_complete_step_effect_witness :
    (stRun2.steps "alpha").resultcode = some 0 ∧
    (stRun2.steps "alpha").stopTime = some 9 ∧
    (stRun2.steps "alpha").duration = 4 ∧
    (stRun2.steps "alpha").status = .complete ∧
    stRun2.completed = stRun.completed ++ ["alpha"] := by
  obtain ⟨h1, h2, h3, h4, _⟩ :=
    C4_complete_step_effect gSimple 1 "alpha" 0 9 5 stRun stRun2 rfl rfl
  obtain ⟨h5, h6, _⟩ := h4 (by decide)
  refine ⟨h1, h2, ?_, h5, h6⟩
  rw [h3]
  decide

/-! ### Claim C5: `cancel_children` -/

/-- C5: `cancel_children step` transitions exactly the members of the
computed descendant set that are currently waiting or queued to canceled;
every other step record — descendants already running or terminal, and all
non-descendants — and the queue, process table, completed and failed lists
are left unchanged. -/
theorem C5_cancel_children_exact (g : JobCfg) (fuel : Nat) (s : String)
    (st st' : JobState) (ds : List String)
    (hds : get_decendents g fuel s = some ds)
    (h : cancel_children g fuel s st = some st') :
    st'.queue = st.queue ∧ st'.processes = st.processes ∧
    st'.completed = st.completed ∧ st'.failed = st.failed ∧
    (∀ t, t ∈ ds → ((st.steps t).status = .waiting ∨ (st.steps t).status = .queued) →
      st'.steps t = { st.steps t with status := .canceled }) ∧
    (∀ t, t ∉ ds ∨ ((st.steps t).status ≠ .waiting ∧ (st.steps t).status ≠ .queued) →
      st'.steps t = st.steps t) := by
  rw [cancel_children, hds] at h
  dsimp only [Option.map] at h
  cases h
  refine ⟨?_, ?_, ?_, ?_, ?_, ?_⟩
  · rw [cancel_children_with, cancel_list_queue]
  · rw [cancel_children_with, cancel_list_processes]
  · rw [cancel_children_with, cancel_list_completed]
  · rw [cancel_children_with, cancel_list_failed]
  · intro t htds hwq
    rw [cancel_children_with_steps, if_pos ⟨htds, hwq⟩]
  · intro t hcond
    rw [cancel_children_with_steps, if_neg]
    rintro ⟨h1, h2⟩
    rcases hcond with h3 | ⟨h3, h4⟩
    · exact h3 h1
    · rcases h2 with h5 | h5
      · exact h3 h5
      · exact h4 h5

theorem C5_cancel_children_exact_witness :
    stLine1.steps "B" = { stLine0.steps "B" with status := .canceled } ∧
    stLine1.steps "A" = stLine0.steps "A" ∧
    stLine1.queue = stLine0.queue := by
  obtain ⟨h1, _, _, _, h5, h6⟩ :=
    C5_cancel_children_exact gLine 3 "A" stLine0 stLine1 ["B"] rfl rfl
  exact ⟨h5 "B" (by decide) (Or.inl rfl), h6 "A" (Or.inl (by decide)), h1⟩

/-! ### Claim C1: the concurrency bound -/

/-- C1: for a job whose configured concurrency limit is positive, in every
state reachable by the job's operations the number of steps whose status is
`running` is at most that limit.  `process_queue` dispatches only while the
live count, recomputed by `get_running_steps` after every pop, is strictly
below `CONCURRENCY`, and no other operation sets a step to `running`. -/
theorem C1_running_le_concurrency (raw : List (String × RawStep)) (simulate : Bool)
    (disabled : List String) (conc : Nat) (st : JobState)
    (hk : (raw.map Prod.fst).Nodup) (_hpos : 0 < conc)
    (hr : Reachable (jobCfg raw simulate conc) (jobInitState raw simulate disabled) st) :
    runningCount (jobCfg raw simulate conc) st ≤ conc := by
  have h0 : runningCount (jobCfg raw simulate conc) (jobInitState raw simulate disabled)
      ≤ conc := by
    have hz : ∀ s, (((jobInitState raw simulate disabled).steps s).status).runningFlag
        = false := fun s => rfl
    rw [runningCount, get_running_steps]
    simp [hz]
  exact (reachable_spec (jobCfg raw simulate conc) hk _ st
    (good_init raw simulate disabled conc) h0 hr).2

theorem C1_running_le_concurrency_witness :
    runningCount gSimple stSimple0 ≤ 1 :=
  C1_running_le_concurrency rawSimple true [] 1 stSimple0 (by decide) (by decide)
    Reachable.refl

/-! ### Claim C6: unknown dependency ids -/

/-- C6 counterexample: `Job.__init__` performs no validation of dependency
ids (and the module defines no `ConfigurationError` at all — only `Error` and
`InvalidTypeError`).  With the configuration `rawBad`, in which `beta`
depends on the unknown id `ghost`, construction succeeds and the very first
loop iteration executes step `alpha` to completion, refuting the claim that
construction fails before any step is executed. -/
theorem C6_counterexample_runs_despite_unknown_dep :
    process_queue gBad 9 (fun _ => .delivered false) (fun _ => 0) 0 stBad1 = .ok stBad2 ∧
    "ghost" ∈ depsL gBad "beta" ∧ "ghost" ∉ gBad.keys ∧
    "alpha" ∈ stBad2.completed ∧ (stBad2.steps "alpha").status = .complete ∧
    (stBad2.steps "beta").status = .waiting :=
  ⟨rfl, by decide, by decide, by decide, rfl, rfl⟩

/-- C6 (amended): construction does not fail on an unknown dependency id —
no exception is raised and the job runs.  Instead, a step one of whose
dependency ids is not a step key can never have its dependencies met (the
completed list only ever holds step keys), so in every reachable state it is
still waiting (or canceled by a cascade) and is never queued or executed. -/
theorem C6_unknown_dependency_never_runs (raw : List (String × RawStep)) (simulate : Bool)
    (disabled : List String) (conc : Nat) (s d : String) (st : JobState)
    (hk : (raw.map Prod.fst).Nodup)
    (hd : d ∈ depsL (jobCfg raw simulate conc) s)
    (hdk : d ∉ (jobCfg raw simulate conc).keys)
    (hr : Reachable (jobCfg raw simulate conc) (jobInitState raw simulate disabled) st) :
    ((st.steps s).status = .waiting ∨ (st.steps s).status = .canceled) ∧
      dependencies_met (jobCfg raw simulate conc) st s = false :=
  reachable_unknown_dep (jobCfg raw simulate conc) hk _ st
    (good_init raw simulate disabled conc) s d hd hdk rfl hr

theorem C6_unknown_dependency_never_runs_witness :
    ((stBad2.steps "beta").status = .waiting ∨ (stBad2.steps "beta").status = .canceled) ∧
      dependencies_met gBad stBad2 "beta" = false :=
  C6_unknown_dependency_never_runs rawBad true [] 1 "beta" "ghost" stBad2
    (by decide) (by decide) (by decide)
    (Reachable.step (.processQueueOp 9 (fun _ => .delivered false) (fun _ => 0) 0)
      (Reachable.step (.queueRunnablesOp 0) Reachable.refl rfl) rfl)

/-! ### Claim C7: `is_success` -/

/-- C7: in every reachable state, `is_success` — which compares the number
of steps with the length of the completed list — is true iff every step id
of the job is present in the completed list (and hence iff no step remains
failed, canceled, aborted or unfinished: those are never in `completed`). -/
theorem C7_is_success_iff (raw : List (String × RawStep)) (simulate : Bool)
    (disabled : List String) (conc : Nat) (st : JobState)
    (hk : (raw.map Prod.fst).Nodup)
    (hr : Reachable (jobCfg raw simulate conc) (jobInitState raw simulate disabled) st) :
    is_success (jobCfg raw simulate conc) st = true ↔
      ∀ k ∈ (jobCfg raw simulate conc).keys, k ∈ st.completed := by
  set g : JobCfg := jobCfg raw simulate conc with hgdef
  have hg : Good g st :=
    reachable_good g hk _ st (good_init raw simulate disabled conc) hr
  have hkk : g.keys.Nodup := hk
  have hsubs : st.completed.toFinset ⊆ g.keys.toFinset := by
    intro x hx
    exact List.mem_toFinset.mpr (hg.completed_sub x (List.mem_toFinset.mp hx))
  have hck : st.completed.toFinset.card = st.completed.length :=
    List.toFinset_card_of_nodup hg.completed_nodup
  have hkc : g.keys.toFinset.card = g.keys.length :=
    List.toFinset_card_of_nodup hkk
  constructor
  · intro hs k hkmem
    have hlen : g.keys.length = st.completed.length := of_decide_eq_true hs
    have hfeq : st.completed.toFinset = g.keys.toFinset := by
      apply Finset.eq_of_subset_of_card_le hsubs
      rw [hck, hkc, hlen]
    have : k ∈ st.completed.toFinset := by
      rw [hfeq]
      exact List.mem_toFinset.mpr hkmem
    exact List.mem_toFinset.mp this
  · intro hall
    have hfeq : g.keys.toFinset = st.completed.toFinset := by
      apply Finset.Subset.antisymm
      · intro x hx
        exact List.mem_toFinset.mpr (hall x (List.mem_toFinset.mp hx))
      · exact hsubs
    have hlen : g.keys.length = st.completed.length := by
      rw [← hck, ← hkc, hfeq]
    exact decide_eq_true hlen

theorem C7_is_success_iff_witness :
    is_success gSimple stSimple0 = true ↔
      ∀ k ∈ gSimple.keys, k ∈ stSimple0.completed :=
  C7_is_success_iff rawSimple true [] 1 stSimple0 (by decide) Reachable.refl

/-! ### Claim C8: queue discipline -/

/-- C8: in every reachable state, every id in the run queue has status
`queued` and appears in the queue at most once; and across every operation a
queued step either stays queued or moves to `running` (possibly continuing
to `complete`/`failed` within the same `process_queue` call for an internal
step) — never to `canceled`, `aborted` or back to `waiting`.  This holds even
though `cancel_children` would cancel a queued descendant without removing it
from the queue: in reachable states a queued step's ancestors are all
complete, so it is never a descendant of a failing or aborting step. -/
theorem C8_queue_discipline (raw : List (String × RawStep)) (simulate : Bool)
    (disabled : List String) (conc : Nat) (st : JobState)
    (hk : (raw.map Prod.fst).Nodup)
    (hr : Reachable (jobCfg raw simulate conc) (jobInitState raw simulate disabled) st) :
    st.queue.Nodup ∧
    (∀ s ∈ st.queue, (st.steps s).status = .queued) ∧
    (∀ (o : Op) (st' : JobState), applyOp (jobCfg raw simulate conc) o st = .ok st' →
      ∀ s, (st.steps s).status = .queued →
        (st'.steps s).status = .queued ∨ (st'.steps s).status = .running ∨
        (st'.steps s).status = .complete ∨ (st'.steps s).status = .failed) := by
  have hg : Good (jobCfg raw simulate conc) st :=
    reachable_good _ hk _ st (good_init raw simulate disabled conc) hr
  exact ⟨hg.queue_nodup, hg.queue_status,
    fun o st' hok s hs => (applyOp_spec _ hk o st st' hg hok).2.2.2.1 s hs⟩

theorem C8_queue_discipline_witness :
    stSimple1.queue.Nodup ∧ (stSimple1.steps "alpha").status = .queued := by
  have h := C8_queue_discipline rawSimple true [] 1 stSimple1 (by decide)
    (Reachable.step (.queueRunnablesOp 1) Reachable.refl rfl)
  exact ⟨h.1, h.2.1 "alpha" (by decide)⟩

/-! ### Claim C9: `send_mail` dispatch outcomes -/

/-- C9 counterexample: with the non-simulated `send_mail` step `mailer` at
the head of the queue, an SMTP exception during delivery (`mailO = raised`)
is NOT converted into a non-zero result code: `process_queue` has no handler
around `self.send_mail(...)`, so the exception propagates and the dispatch
loop aborts; the step is never marked failed and the job does not continue. -/
theorem C9_counterexample_mail_exception_aborts :
    process_queue gMail 5 (fun _ => .raised) (fun _ => 0) 0 stMail1 = .error .mailRaised ∧
    (stMail1.steps "mailer").status = .queued ∧
    gMail.simulate = false ∧ (stMail1.steps "mailer").simulate = false :=
  ⟨rfl, rfl, rfl, rfl⟩

/-- C9 (amended): for a non-simulated internal `send_mail` step at the head
of the queue with a free concurrency slot: a successful delivery (empty
refusal dictionary) completes the step with result code 0; a delivery
reported as a non-empty refusal dictionary is treated as result code 1 and
the step becomes failed, the dispatch loop continuing; but an SMTP exception
escapes `process_queue` (the run aborts) instead of being treated as a
non-zero result code. -/
theorem C9_send_mail_outcomes (g : JobCfg) (fuel : Nat) (mailO : String → MailOutcome)
    (pidO : String → Nat) (now : Int) (st : JobState) (s : String) (rest : List String)
    (hg : Good g st) (hk : g.keys.Nodup)
    (hq : st.queue = s :: rest)
    (hcnt : runningCount g st < g.concurrency)
    (hint : g.stype s = "internal") (htask : g.task s = "send_mail")
    (hgs : g.simulate = false) (hss : (st.steps s).simulate = false) :
    (mailO s = .raised →
      process_queue g fuel mailO pidO now st = .error .mailRaised) ∧
    (∀ st', process_queue g fuel mailO pidO now st = .ok st' →
      (mailO s = .delivered false → 0 ∈ g.rcAllowed s →
        (st'.steps s).status = .complete ∧ s ∈ st'.completed ∧
        (st'.steps s).resultcode = some 0) ∧
      (mailO s = .delivered true → 1 ∉ g.rcAllowed s →
        (st'.steps s).status = .failed ∧ s ∈ st'.failed ∧
        (st'.steps s).resultcode = some 1)) := by
  have hsk : s ∈ g.keys := hg.queue_sub s (by rw [hq]; simp)
  have hos : ¬ g.stype s = "os" := by
    rw [hint]
    decide
  have hg1 : Good g (dispatch_mark s now { st with queue := rest }) :=
    dispatch_mark_good g st s rest now hg hq
  have h1s : (dispatch_mark s now { st with queue := rest }).steps s =
      { st.steps s with status := .running, startTime := some now } := by
    rw [dispatch_mark, setStep_steps_same]
  have h1ss : ((dispatch_mark s now { st with queue := rest }).steps s).status
      = .running := by rw [h1s]
  have h1t : ∀ t, t ≠ s →
      (dispatch_mark s now { st with queue := rest }).steps t = st.steps t := by
    intro t ht
    rw [dispatch_mark, setStep_steps_other _ _ _ _ ht]
  have h1sim : ((dispatch_mark s now { st with queue := rest }).steps s).simulate
      = false := by rw [h1s]; exact hss
  have hcond : (g.simulate ||
      ((dispatch_mark s now { st with queue := rest }).steps s).simulate) = false := by
    rw [hgs, h1sim]
    rfl
  have hsimif : (if (g.simulate ||
        ((dispatch_mark s now { st with queue := rest }).steps s).simulate) = true then
        MailOutcome.delivered false else mailO s) = mailO s := by
    rw [hcond]
    simp
  have hpq : process_queue g fuel mailO pidO now st =
      (match mailO s with
       | .raised => .error .mailRaised
       | .delivered refused =>
         match complete_step g fuel s (if refused then 1 else 0) now
             (dispatch_mark s now { st with queue := rest }) with
         | none => Except.error RunErr.fuelOut
         | some st2 => process_queue_aux g fuel mailO pidO now rest st2) := by
    rw [process_queue, hq, process_queue_aux, if_pos hcnt]
    dsimp only
    rw [if_neg hos, if_pos hint, if_pos htask, hsimif]
  refine ⟨?_, ?_⟩
  · intro hraised
    rw [hpq, hraised]
  · intro st' hok
    rw [hpq] at hok
    rcases hout : mailO s with refused | _
    · rw [hout] at hok
      dsimp only at hok
      rcases hcs : complete_step g fuel s (if refused then 1 else 0) now
          (dispatch_mark s now { st with queue := rest }) with _ | st2
      · rw [hcs] at hok
        cases hok
      · rw [hcs] at hok
        obtain ⟨kg2, kque, _, _, _, _, _, _⟩ :=
          complete_step_good g fuel s (if refused then 1 else 0) now _ st2 hg1 hsk
            (Or.inl h1ss) hcs
        have kq2 : st2.queue = rest := kque
        obtain ⟨ja, _, jc, jd, _, _⟩ :=
          process_queue_aux_spec g fuel mailO pidO now hk rest st2 st' kg2 kq2 hok
        obtain ⟨_, _, hif⟩ := complete_step_cases g fuel s (if refused then 1 else 0)
          now _ st2 hcs
        refine ⟨?_, ?_⟩
        · intro hdf h0a
          have hrf : refused = false := by
            injection hdf
          subst hrf
          rw [if_pos (by simpa using h0a)] at hif
          obtain ⟨hce, _, hss2, _⟩ := hif
          have hstat2 : (st2.steps s).status = .complete := by rw [hss2]
          obtain ⟨m1, _⟩ := jd s (by rw [hstat2]; intro hcc; cases hcc)
            (by rw [hstat2]; intro hcc; cases hcc)
          refine ⟨by rw [m1, hss2], ?_, by rw [m1, hss2]; rfl⟩
          have hmem2 : s ∈ st2.completed := by
            rw [hce]
            exact List.mem_append_right _ (by simp)
          exact jc s hmem2
        · intro hdt h1a
          have hrf : refused = true := by
            injection hdt
          subst hrf
          rw [if_neg (by simpa using h1a)] at hif
          obtain ⟨ds, _, _, hfe, hss2, _⟩ := hif
          have hstat2 : (st2.steps s).status = .failed := by rw [hss2]
          obtain ⟨m1, _⟩ := jd s (by rw [hstat2]; intro hcc; cases hcc)
            (by rw [hstat2]; intro hcc; cases hcc)
          refine ⟨by rw [m1, hss2], ?_, by rw [m1, hss2]; rfl⟩
          apply ja.failed_mem
          rw [m1, hstat2]
    · rw [hout] at hok
      cases hok

theorem C9_send_mail_outcomes_witness :
    (stMail2.steps "mailer").status = .complete ∧
    "mailer" ∈ stMail2.completed ∧
    (stMail2.steps "mailer").resultcode = some 0 := by
  have hg1 : Good gMail stMail1 :=
    (queue_runnables_spec gMail 0 stMail0 (good_init rawMail false [] 1)).1
  have h := (C9_send_mail_outcomes gMail 5 (fun _ => .delivered false) (fun _ => 0) 7
    stMail1 "mailer" [] hg1 (by decide) rfl (by decide) rfl rfl rfl rfl).2 stMail2 rfl
  exact h.1 rfl (by decide)

/-! ### Claim C10: simulated os steps and `abort_step` -/

theorem runningFlag_false_of_ne (x : Status) (h : x ≠ .running) :
    x.runningFlag = false := by
  cases x <;> simp [Status.runningFlag]
  exact h rfl

/-- If the first running step that `cancel` reaches fails to abort, the whole
`cancel` call propagates that error. -/
theorem cancel_aux_first_error (g : JobCfg) (fuel : Nat) (s : String) (st : JobState) :
    ∀ l : List String, s ∈ l →
    (∀ t ∈ l, t ≠ s → ((st.steps t).status).runningFlag = false) →
    ((st.steps s).status).runningFlag = true →
    abort_step g fuel s st = .error .keyErr →
    cancel_aux g fuel l st = .error .keyErr := by
  intro l
  induction l with
  | nil =>
    intro h
    cases h
  | cons a rest ih =>
    intro hmem hothers hrun habort
    rw [cancel_aux]
    by_cases has : a = s
    · subst has
      rw [if_pos hrun, habort]
    · have hflag : ((st.steps a).status).runningFlag = false :=
        hothers a (by simp) has
      rw [if_neg (by rw [hflag]; decide)]
      apply ih
      · rcases List.mem_cons.mp hmem with h1 | h1
        · exact absurd h1.symm has
        · exact h1
      · intro t ht hts
        exact hothers t (List.mem_cons_of_mem _ ht) hts
      · exact hrun
      · exact habort

/-- C10: an os-type step dispatched while simulated gets `{}` stored as its
`processes` entry and is left in `running`; `abort_step` on it then raises a
`KeyError` (looking up the missing `process` key) instead of cleanly
transitioning it to `aborted`, and — when it is the only running or queued
step — a job-level `cancel` (which aborts every running step) raises the same
`KeyError` instead of completing. -/
theorem C10_simulated_os_abort_keyerror (g : JobCfg) (fuel : Nat)
    (mailO : String → MailOutcome) (pidO : String → Nat) (now : Int)
    (st st' : JobState) (s : String) (rest : List String)
    (hg : Good g st) (hk : g.keys.Nodup)
    (hq : st.queue = s :: rest)
    (hcnt : runningCount g st < g.concurrency)
    (hos : g.stype s = "os")
    (hsim : (g.simulate || ((st.steps s).simulate)) = true)
    (h : process_queue g fuel mailO pidO now st = .ok st') :
    List.lookup s st'.processes = some .empty ∧
    (st'.steps s).status = .running ∧
    (∀ fuel2, abort_step g fuel2 s st' = .error .keyErr) ∧
    ((∀ t, t ≠ s → (st.steps t).status ≠ .running ∧ (st.steps t).status ≠ .queued) →
      ∀ fuel2, cancel g fuel2 st' = .error .keyErr) := by
  have hsk : s ∈ g.keys := hg.queue_sub s (by rw [hq]; simp)
  have hg1 : Good g (dispatch_mark s now { st with queue := rest }) :=
    dispatch_mark_good g st s rest now hg hq
  have h1s : (dispatch_mark s now { st with queue := rest }).steps s =
      { st.steps s with status := .running, startTime := some now } := by
    rw [dispatch_mark, setStep_steps_same]
  have h1ss : ((dispatch_mark s now { st with queue := rest }).steps s).status
      = .running := by rw [h1s]
  have h1t : ∀ t, t ≠ s →
      (dispatch_mark s now { st with queue := rest }).steps t = st.steps t := by
    intro t ht
    rw [dispatch_mark, setStep_steps_other _ _ _ _ ht]
  have h1sim : ((dispatch_mark s now { st with queue := rest }).steps s).simulate
      = (st.steps s).simulate := by rw [h1s]
  have hcond : (g.simulate ||
      ((dispatch_mark s now { st with queue := rest }).steps s).simulate) = true := by
    rw [h1sim]
    exact hsim
  have hpq : process_queue g fuel mailO pidO now st =
      process_queue_aux g fuel mailO pidO now rest
        { dispatch_mark s now { st with queue := rest } with
            processes := update_proc
              (dispatch_mark s now { st with queue := rest }).processes s .empty } := by
    rw [process_queue, hq, process_queue_aux, if_pos hcnt]
    dsimp only
    rw [if_pos hos, if_pos hcond]
  rw [hpq] at h
  set st2 : JobState :=
    { dispatch_mark s now { st with queue := rest } with
        processes := update_proc
          (dispatch_mark s now { st with queue := rest }).processes s .empty } with hst2
  have h2s : (st2.steps s).status = .running := h1ss
  have h2t : ∀ t, t ≠ s → st2.steps t = st.steps t := fun t ht => h1t t ht
  have h2look : List.lookup s st2.processes = some .empty :=
    update_proc_lookup_self _ s .empty
  have kg2 : Good g st2 :=
    good_update_os g (dispatch_mark s now { st with queue := rest }) st2 s .empty hg1 hsk
      h1ss h2s (fun t ht => rfl) rfl rfl rfl rfl
  obtain ⟨ja, _, _, jd, _, jf⟩ :=
    process_queue_aux_spec g fuel mailO pidO now hk rest st2 st' kg2 rfl h
  obtain ⟨m1, m2⟩ := jd s (by rw [h2s]; intro hcc; cases hcc)
    (by rw [h2s]; intro hcc; cases hcc)
  have hlook' : List.lookup s st'.processes = some .empty := by
    rw [m2, h2look]
  have hstat' : (st'.steps s).status = .running := by
    rw [m1, h2s]
  have habort : ∀ fuel2, abort_step g fuel2 s st' = .error .keyErr := by
    intro fuel2
    rw [abort_step, if_pos hos, hlook']
  refine ⟨hlook', hstat', habort, ?_⟩
  intro honly fuel2
  rw [cancel]
  apply cancel_aux_first_error g fuel2 s st' g.keys hsk ?_ (by rw [hstat']; rfl)
    (habort fuel2)
  intro t _ hts
  apply runningFlag_false_of_ne
  obtain ⟨hnr, hnq⟩ := honly t hts
  by_cases hwc : (st.steps t).status = .waiting ∨ (st.steps t).status = .canceled
  · have hwc2 : (st2.steps t).status = .waiting ∨ (st2.steps t).status = .canceled := by
      rw [h2t t hts]
      exact hwc
    rcases jf t hwc2 with h1 | h1 <;> rw [h1] <;> intro hcc <;> cases hcc
  · push_neg at hwc
    obtain ⟨hnw, hnc⟩ := hwc
    have hnw2 : (st2.steps t).status ≠ .waiting := by
      rw [h2t t hts]
      exact hnw
    have hnq2 : (st2.steps t).status ≠ .queued := by
      rw [h2t t hts]
      exact hnq
    obtain ⟨n1, _⟩ := jd t hnw2 hnq2
    rw [n1, h2t t hts]
    exact hnr

theorem C10_simulated_os_abort_keyerror_witness :
    List.lookup "osstep" stOs2.processes = some .empty ∧
    (stOs2.steps "osstep").status = .running ∧
    abort_step gOs 3 "osstep" stOs2 = .error .keyErr ∧
    cancel gOs 3 stOs2 = .error .keyErr := by
  have hg1 : Good gOs stOs1 :=
    (queue_runnables_spec gOs 0 stOs0 (good_init rawOs false [] 2)).1
  have h := C10_simulated_os_abort_keyerror gOs 3 (fun _ => .delivered false)
    (fun _ => 1) 0 stOs1 stOs2 "osstep" [] hg1 (by decide) rfl (by decide) rfl
    (by decide) rfl
  refine ⟨h.1, h.2.1, h.2.2.1 3, h.2.2.2 ?_ 3⟩
  intro t ht
  have hform : stOs1.steps t =
      (if t = "osstep" then
        { stOs0.steps "osstep" with status := .queued, queuedTime := some 0 }
      else stOs0.steps t) :=
    setStep_steps stOs0 "osstep"
      { stOs0.steps "osstep" with status := .queued, queuedTime := some 0 } t
  rw [if_neg ht] at hform
  have hwait : (stOs0.steps t).status = .waiting := rfl
  rw [hform, hwait]
  refine ⟨?_, ?_⟩ <;> intro hcc <;> cases hcc

end JobControl
